import Mathlib

set_option maxHeartbeats 1000000

/-
Verification development for the koa-butterfly routing core.

The embedding translates the TypeScript sources into pure Lean functions:
- JS strings are modelled as `List Char` (`Path`).
- Handlers are opaque and identified by `Nat` ids; their only relevant
  runtime behaviour (whether they invoke `next`) is an abstract `Nat → Bool`.
- `StagedArray` keeps its internal `stagedData` list of `(stage, item)`
  pairs; `orderedStagedData` is maintained in lockstep with `stagedData`
  in the source (both receive the same splice), so `orderedData` is
  modelled as `stagedData.map Prod.snd`.
- JS `Array.prototype.sort` is stable (ES2019), modelled by `List.mergeSort`.
- The radix tree `Node` and the `Router` dispatch generator are modelled
  further below.
-/

namespace Butterfly

abbrev Path := List Char

/-- Stage comparison used when sorting staged tuples (JS comparator `a - b`). -/
def stageLe {D : Type} (a b : Int × D) : Bool := a.1 ≤ b.1

/-- JS `Array.prototype.findIndex`: index of the first match, or -1. -/
def jsFindIndex {A : Type} (p : A → Bool) (l : List A) : Int :=
  if l.any p then (l.findIdx p : Int) else -1

/-- Start-index normalization performed by JS `Array.prototype.splice`:
negative starts count from the end (clamped at 0), positive are clamped at the length. -/
def spliceStart (i : Int) (len : Nat) : Nat :=
  if i < 0 then ((len : Int) + i).toNat else min i.toNat len

/-- `StagedArray.addData` acting on the raw `stagedData` list
(StagedArray source, `addData`): compute the insertion index
(0 when empty; the length when the last stage is at most `stage`;
otherwise `findIndex` of the first strictly greater stage) and splice
the new `(stage, item)` pairs in at that position. -/
def addDataL {D : Type} (l : List (Int × D)) (stage : Int) (ds : List D) : List (Int × D) :=
  let i : Int :=
    match l.getLast? with
    | none => 0
    | some e => if e.1 ≤ stage then (l.length : Int) else jsFindIndex (fun q => decide (stage < q.1)) l
  let k := spliceStart i l.length
  l.take k ++ ds.map (fun d => (stage, d)) ++ l.drop k

/-- A `StagedArray`: an insertion list of `(stage, item)` pairs kept in stage order. -/
structure StagedArray (D : Type) where
  stagedData : List (Int × D)

def StagedArray.empty {D : Type} : StagedArray D := ⟨[]⟩

def StagedArray.addData {D : Type} (sa : StagedArray D) (stage : Int) (ds : List D) : StagedArray D :=
  ⟨addDataL sa.stagedData stage ds⟩

/-- The `orderedData` getter: the items in staged order. -/
def StagedArray.orderedData {D : Type} (sa : StagedArray D) : List D :=
  sa.stagedData.map Prod.snd

/-- The tuple-level list built inside `StagedArray.sortWith`: with zero extra
arrays the receiver's own (already ordered) tuples are used as is, otherwise
all tuples are concatenated (receiver first, then the arguments in order) and
stably sorted by stage. -/
def jsSortTuples {D : Type} (ls : List (List (Int × D))) : List (Int × D) :=
  match ls with
  | [] => []
  | [a] => a
  | a :: rest => (a ++ rest.flatten).mergeSort stageLe

/-- `StagedArray.sort` acting on raw `stagedData` lists: the merged, ordered data. -/
def sortL {D : Type} (ls : List (List (Int × D))) : List D :=
  (jsSortTuples ls).map Prod.snd

/-- `StagedArray.prototype.sortWith`. -/
def StagedArray.sortWith {D : Type} (sa : StagedArray D) (others : List (StagedArray D)) : List D :=
  sortL (sa.stagedData :: others.map StagedArray.stagedData)

/-- Static `StagedArray.sort`. -/
def StagedArray.sort {D : Type} (sas : List (StagedArray D)) : List D :=
  sortL (sas.map StagedArray.stagedData)

/-- A `stagedData` list is in stage order. -/
def sortedByStage {D : Type} (l : List (Int × D)) : Prop :=
  l.Pairwise (fun a b => a.1 ≤ b.1)

/-- Filter a staged list down to the entries of one stage. -/
def stageFilter {D : Type} (s : Int) (l : List (Int × D)) : List (Int × D) :=
  l.filter (fun e => decide (e.1 = s))

/-- A `StagedArray` built from the empty array by a sequence of `addData`
calls, each a stage paired with the items appended by that call. -/
def buildStaged {D : Type} (calls : List (Int × List D)) : StagedArray D :=
  ⟨calls.foldl (fun l c => addDataL l c.1 c.2) []⟩

/-- All items of a call sequence as staged tuples, in insertion order. -/
def flatCalls {D : Type} (calls : List (Int × List D)) : List (Int × D) :=
  (calls.map (fun c => c.2.map (fun d => (c.1, d)))).flatten

/-- A radix tree node (src `Node`), with the router's per-node data
(`RouterNodeData`) inlined. `segment` is the edge label and `children` the
ordered child list. `methodData` is the JS `Map` from method key to the pair
(middleware stagedData, terminators stagedData), in insertion order; handlers
are identified by `Nat` ids. `lateParams` is the stagedData list of parameter
branches: each is (name, optional regex id, matchAll flag, sub-tree root);
regexes are kept abstract as ids resolved by a match environment at dispatch
time. -/
inductive RNode where
  | mk (segment : Path) (children : List RNode)
       (methodData : List (String × (List (Int × Nat) × List (Int × Nat))))
       (lateParams : List (Int × (String × Option Nat × Bool × RNode)))

def RNode.segment : RNode → Path
  | .mk s _ _ _ => s

def RNode.children : RNode → List RNode
  | .mk _ c _ _ => c

def RNode.methodData : RNode → List (String × (List (Int × Nat) × List (Int × Nat)))
  | .mk _ _ m _ => m

def RNode.lateParams : RNode → List (Int × (String × Option Nat × Bool × RNode))
  | .mk _ _ _ p => p

mutual

/-- A computable size of a tree, used as recursion fuel below: every descent
into a child strictly decreases it. -/
def sizeR : RNode → Nat
  | .mk _ cs _ ps => 1 + sizeChildrenR cs + sizeParamsR ps

def sizeChildrenR : List RNode → Nat
  | [] => 0
  | c :: rest => sizeR c + sizeChildrenR rest

def sizeParamsR : List (Int × (String × Option Nat × Bool × RNode)) → Nat
  | [] => 0
  | e :: rest => 1 + sizeR e.2.2.2.2 + sizeParamsR rest

end

/-- A freshly constructed node: the data creator yields an empty payload. -/
def RNode.fresh (seg : Path) : RNode := .mk seg [] [] []

/-- The synthetic root label of a default-constructed tree. -/
def rootLabel : Path := '<' :: 'r' :: 'o' :: 'o' :: 't' :: '>' :: []

/-- An empty tree as built by `new Node(dataCreator)`. -/
def emptyRNode : RNode := RNode.fresh rootLabel

def RNode.withChildren : RNode → List RNode → RNode
  | .mk s _ m p, cs => .mk s cs m p

def RNode.withSegment : RNode → Path → RNode
  | .mk _ cs m p, s => .mk s cs m p

/-- `Node.commonLength`: the length of the longest common prefix. -/
def commonLength : Path → Path → Nat
  | x :: xs, y :: ys => if x = y then commonLength xs ys + 1 else 0
  | _, _ => 0

/-- The create step of `Node.findAll(path, true)` once the descent has stopped
at `n` with `rem` unmatched: either append a new leaf when no child shares a
prefix with `rem`, or split the first such child. `isRoot` records whether the
stop node is the receiver of the `findAll` call: the source computes the
splice index with `this.children.indexOf(bestNode)`, which is the found index
when the receiver is the stop node and -1 (JS not-found) otherwise. -/
def splitOrAppend (isRoot : Bool) (n : RNode) (rem : Path) : RNode :=
  let cs := n.children
  let bi := cs.findIdx (fun c => decide (0 < commonLength rem c.segment))
  match cs.get? bi with
  | none => n.withChildren (cs ++ [RNode.fresh rem])
  | some bestNode =>
    let bestCommonLength := commonLength rem bestNode.segment
    let commonSegment := bestNode.segment.take bestCommonLength
    let spliceIndex : Int := if isRoot then (bi : Int) else -1
    let k := spliceStart spliceIndex cs.length
    let bestAdjusted := bestNode.withSegment (bestNode.segment.drop bestCommonLength)
    let branchChildren := if rem.length ≤ commonSegment.length
        then [bestAdjusted]
        else [bestAdjusted, RNode.fresh (rem.drop bestCommonLength)]
    let branchNode := RNode.mk commonSegment branchChildren [] []
    let spliced := cs.set k branchNode
    n.withChildren (if k = bi then spliced else spliced.set bi bestAdjusted)

/-- The tree produced by `Node.findAll(path, true)` (as used by
`findOrCreateNode` and registration): descend matching children, then create.
`fuel` only bounds the recursion depth; `sizeOf` the node is always enough. -/
def insertF (fuel : Nat) (isRoot : Bool) (n : RNode) (rem : Path) : RNode :=
  if rem = [] then n
  else
    match fuel with
    | 0 => n
    | fuel + 1 =>
      let cs := n.children
      let i := cs.findIdx (fun c => c.segment.isPrefixOf rem)
      match cs.get? i with
      | some c =>
        let rest := rem.drop c.segment.length
        if rest = [] then n
        else n.withChildren (cs.set i (insertF fuel false c rest))
      | none => splitOrAppend isRoot n rem

/-- `Node.findOrCreateNode(path)`, as the updated tree. -/
def insertPath (root : RNode) (path : Path) : RNode :=
  insertF (sizeR root + path.length) true root path

/-- `Node.find(path)` (exact find, no creation): the node at exactly `path`,
or `none`. -/
def findExactF (fuel : Nat) (n : RNode) (rem : Path) : Option RNode :=
  if rem = [] then some n
  else
    match fuel with
    | 0 => none
    | fuel + 1 =>
      match n.children.find? (fun c => c.segment.isPrefixOf rem) with
      | none => none
      | some c => findExactF fuel c (rem.drop c.segment.length)

def findExact (root : RNode) (path : Path) : Option RNode :=
  findExactF (sizeR root + path.length) root path

/-- The replacement rule at a (non-first) yield: a handed-back string replaces
the post-consumption remainder. -/
def replOf (reps : List (Option Path)) (r0 : Path) : Path :=
  match reps with
  | some s :: _ => s
  | _ => r0

/-- The effective remainder after the first yield: a handed-back string
replaces the supplied path, except that the source applies JS `||`, so an
empty replacement falls back to the path. -/
def firstEff (path : Path) (reps : List (Option Path)) : Path :=
  match reps with
  | some s :: _ => if s = [] then path else s
  | _ => path

/-- The loop of `Node.nodeIterator` after the initial yield: starting at `n`
with effective remaining path `rem`, repeatedly take the first child whose
label is a prefix of the remainder, consume it and yield the pair; each yield
may be answered with a replacement remaining path (`reps`, one optional entry
per subsequent yield), which is used from that point on; stop when the
remainder becomes empty or no child matches. -/
def iterSteps (fuel : Nat) (n : RNode) (rem : Path) (reps : List (Option Path)) : List (RNode × Path) :=
  match fuel with
  | 0 => []
  | fuel + 1 =>
    match n.children.find? (fun c => c.segment.isPrefixOf rem) with
    | none => []
    | some c =>
      let r0 := rem.drop c.segment.length
      (c, r0) ::
        (let r1 := replOf reps r0
        if r1 = [] then [] else iterSteps fuel c r1 reps.tail)

/-- `Node.nodeIterator(path)`: the sequence of yielded (node, remainingPath)
pairs. `reps` lists the values sent back at each yield (starting with the
first); the value answered to the first yield goes through JS `|| path`, so an
empty replacement is replaced by the full path there. -/
def nodeIterator (n : RNode) (path : Path) (reps : List (Option Path)) : List (RNode × Path) :=
  (n, path) ::
    (let r := firstEff path reps
    if r = [] then [] else iterSteps (sizeR n) n r reps.tail)

/-- The walk used by a dispatch: no replacement path is ever sent back. -/
def walkD (root : RNode) (path : Path) : List (RNode × Path) :=
  nodeIterator root path []

/-- Method data: the pair (middleware stagedData, terminators stagedData). -/
abbrev MData := List (Int × Nat) × List (Int × Nat)

/-- `SpecialMethod.MIDDLEWARE`: null-byte prefixed so it cannot collide with
a legal HTTP method name. -/
def smMIDDLEWARE : String := "\x00middleware"

/-- `SpecialMethod.ALL`. -/
def smALL : String := "\x00all"

/-- `RouterNodeData.getMethodData(method)` (without creation): JS `Map.get`. -/
def getMethodData (n : RNode) (m : String) : Option MData :=
  (n.methodData.find? (fun e => e.1 == m)).map Prod.snd

/-- `methodData?.terminators.length || 0`. -/
def termLenOpt (md : Option MData) : Nat :=
  match md with
  | some md => md.2.length
  | none => 0

/-- The HEAD fallback of the dispatch: when the request method is HEAD and its
data has no terminators, remember it as `headData` and use the GET data as
`methodData` instead. Returns (headData, methodData). -/
def headFallback (n : RNode) (method : String) : Option MData × Option MData :=
  let md := getMethodData n method
  if method = "HEAD" ∧ termLenOpt md = 0 then (md, getMethodData n "GET") else (none, md)

/-- The conditional pushes of `matchingMiddlewareSAs`: a middleware
stagedData is included only when the method data exists and it is non-empty. -/
def optMid (md : Option MData) : List (List (Int × Nat)) :=
  match md with
  | some md => if md.1.length > 0 then [md.1] else []
  | none => []

/-- Same for a terminators stagedData. -/
def optTerm (md : Option MData) : List (List (Int × Nat)) :=
  match md with
  | some md => if md.2.length > 0 then [md.2] else []
  | none => []

/-- The `matchingMiddlewareSAs` list assembled at the final node, in source
order: node path-middleware, the gathered terminator-middleware arrays, the
node path-terminators, the HEAD data middleware when the fallback was taken,
the request method middleware, and the ALL middleware. -/
def matchingSAs (n : RNode) (accum : List (List (Int × Nat)))
    (headData methodData allData : Option MData) : List (List (Int × Nat)) :=
  optMid (getMethodData n smMIDDLEWARE) ++ accum ++ optTerm (getMethodData n smMIDDLEWARE)
    ++ optMid headData ++ optMid methodData ++ optMid allData

/-- The dispatch of a request, reified as the sequence of handler groups the
middleware generator produces, together with how it ends:
`callNext` is `return next()` (the generator resuming past its last yield),
`halt` is the plain `return` after a parameter sub-dispatch,
`seq g rest` is `yield g` (the driver runs the composed group `g` and resumes
the generator, producing `rest`, only if every handler of `g` calls `next`),
and `bind name value inner` is the scoped parameter binding around a
sub-dispatch performed through `middlewareValueWrapper`. -/
inductive Plan where
  | callNext
  | halt
  | seq (g : List Nat) (rest : Plan)
  | bind (name : String) (value : Path) (inner : Plan)

/-- `if (methodData) yield methodData.terminators.orderedData` as a plan step. -/
def optTermSeq (md : Option MData) (rest : Plan) : Plan :=
  match md with
  | some md => .seq (md.2.map Prod.snd) rest
  | none => rest

/-- The terminal-node handling of the dispatch: apply the HEAD fallback, look
up the ALL data, and when there are method or ALL terminators produce the
three yields (merged middleware group, method terminators, ALL terminators)
followed by the fall-through `next()`; otherwise `none` (the node falls
through to middleware-only handling). -/
def terminalPlan (n : RNode) (accum : List (List (Int × Nat))) (method : String) : Option Plan :=
  let hm := headFallback n method
  let headData := hm.1
  let methodData := hm.2
  let allData := getMethodData n smALL
  if termLenOpt methodData > 0 ∨ termLenOpt allData > 0 then
    some (.seq (sortL (matchingSAs n accum headData methodData allData))
      (optTermSeq methodData (optTermSeq allData .callNext)))
  else none

/-- Abstract resolution of the stored (anchored) regexes: a regex id applied
to a candidate string yields the matched substring (JS `match` result `[0]`)
or `none` when the regex does not match. -/
abbrev RegexEnv := Nat → Path → Option Path

/-- `segmentValue`: the remaining path up to (excluding) the next `/`, or all
of it when no `/` remains, computed via JS `indexOf`. -/
def segValueOf (rem : Path) : Path :=
  let slashIndex := jsFindIndex (fun ch => decide (ch = '/')) rem
  if slashIndex = -1 then rem else rem.take slashIndex.toNat

/-- One iteration of the parameter loop: the candidate value is the full
remainder for a matchAll branch and the segment value otherwise; an empty
candidate with no regex is skipped; a regex replaces the candidate by its
matched substring and a failed regex skips the branch. On success: the bound
name, the candidate value and the branch sub-tree root. -/
def paramTry (renv : RegexEnv) (rem segVal : Path)
    (pr : Int × (String × Option Nat × Bool × RNode)) : Option (String × Path × RNode) :=
  let name := pr.2.1
  let regex := pr.2.2.1
  let matchAll := pr.2.2.2.1
  let root := pr.2.2.2.2
  let v0 := if matchAll then rem else segVal
  if v0 = [] ∧ regex = none then none
  else
    match regex with
    | none => some (name, v0, root)
    | some rid =>
      match renv rid v0 with
      | none => none
      | some m => some (name, m, root)

/-- The parameter loop over `lateParams.orderedData`: first success wins. -/
def tryParams (renv : RegexEnv) (rem : Path)
    (l : List (Int × (String × Option Nat × Bool × RNode))) : Option (String × Path × RNode) :=
  l.findSome? (paramTry renv rem (segValueOf rem))

def jsEndsWithSlash (p : Path) : Bool := p.getLast? == some '/'

def jsStartsWithSlash (p : Path) : Bool := p.head? == some '/'

/-- The segment-boundary test of an iteration: the walk is exhausted, or the
current node's label ends with `/`, or the next yielded node's label starts
with `/`. -/
def isBoundaryAt (node : RNode) (rest : List (RNode × Path)) : Bool :=
  rest.isEmpty || jsEndsWithSlash node.segment ||
    (match rest.head? with
     | some it => jsStartsWithSlash it.1.segment
     | none => false)

/-- The final-node remainder test: nothing remains, or (with strict slashes
disabled) exactly `/` remains. -/
def isFinalRem (strict : Bool) (rem : Path) : Bool :=
  rem.isEmpty || (!strict && rem == ['/'])

/-- The body of the middleware generator, processing the walk items in order
with one lookahead. `dp` performs the nested dispatch of a parameter
sub-tree (`handleNodePath` on the branch root). `accum` is the
`terminatorMiddleware` accumulator. Per item: at a terminal boundary with
terminators the three terminal yields are produced (and the generator then
falls through to `next()`); otherwise a boundary node contributes its
path-terminators to the accumulator and yields its path-middleware; then the
parameter branches are tried (at every node, boundary or not), a successful
branch producing the scoped bind around the sub-dispatch after which the
generator returns; otherwise the loop continues with the next item.
Exhausting the items is `return next()`. `tryParams` of an empty branch list
is `none`, matching the source's emptiness guard around the block. -/
def planItems (dp : RNode → Path → Plan) (strict : Bool) (method : String) (renv : RegexEnv) :
    List (RNode × Path) → List (List (Int × Nat)) → Plan
  | [], _ => .callNext
  | (node, rem) :: rest, accum =>
    let mwData := getMethodData node smMIDDLEWARE
    let isBoundary := isBoundaryAt node rest
    match (if rest.isEmpty && isFinalRem strict rem then terminalPlan node accum method else none) with
    | some pl => pl
    | none =>
      let accum2 := if isBoundary then accum ++ optTerm mwData else accum
      let tail :=
        match tryParams renv rem node.lateParams with
        | some pv => Plan.bind pv.1 pv.2.1 (dp pv.2.2 (rem.drop pv.2.1.length))
        | none => planItems dp strict method renv rest accum2
      if isBoundary && (match mwData with | some mw => decide (mw.1.length > 0) | none => false)
      then .seq ((match mwData with | some mw => mw.1 | none => []).map Prod.snd) tail
      else tail

/-- The dispatch plan of `handleNodePath(root, path, ...)`: walk the tree from
`root` against `path` and process the yielded items. `fuel` bounds only the
parameter sub-dispatch nesting depth; `sizeR root` is always enough. -/
def dispatchPlan (renv : RegexEnv) (strict : Bool) (method : String) :
    Nat → RNode → Path → Plan
  | 0, _, _ => .halt
  | fuel + 1, root, path =>
    planItems (dispatchPlan renv strict method fuel) strict method renv (walkD root path) []

/-- The plan of a full router dispatch (`middlewareHandler`). -/
def routerDispatchPlan (renv : RegexEnv) (strict : Bool) (method : String)
    (root : RNode) (path : Path) : Plan :=
  dispatchPlan renv strict method (sizeR root) root path

/-- A `ctx.params` entry. A value of `none` stands for a key that is present
but holds JS `undefined` (representable in JS, though the router itself never
stores it). -/
abbrev PEntry := String × Option Path

/-- `ctx.params`: absent (`none`) until first created, then a keyed record. -/
abbrev Ctx := Option (List PEntry)

/-- Reading `ctx.params[name]`: absent key and `undefined` value both read as
`undefined`. -/
def viewJS (ctx : Ctx) (name : String) : Option Path :=
  match ctx with
  | none => none
  | some l =>
    match l.find? (fun e => e.1 == name) with
    | some e => e.2
    | none => none

/-- `name in ctx.params`. -/
def hasKeyJS (ctx : Ctx) (name : String) : Bool :=
  match ctx with
  | none => false
  | some l => l.any (fun e => e.1 == name)

/-- JS object property assignment `params[name] = v`: replace the (unique)
existing entry in place, or append a new one. -/
def setEntry (l : List PEntry) (name : String) (v : Path) : List PEntry :=
  match l with
  | [] => [(name, some v)]
  | e :: rest => if e.1 == name then (name, some v) :: rest else e :: setEntry rest name v

def delEntry (l : List PEntry) (name : String) : List PEntry :=
  l.filter (fun e => ! (e.1 == name))

/-- The setter closure of the parameter block: an `undefined` value deletes
the key, any other value stores it. -/
def setJS (name : String) (v : Option Path) (ctx : Ctx) : Ctx :=
  match ctx with
  | none => none
  | some l => some (match v with | none => delEntry l name | some vv => setEntry l name vv)

/-- `ctx.params ??= ` an empty record. -/
def ensureParams (ctx : Ctx) : Ctx :=
  match ctx with
  | none => some []
  | some l => some l

/-- Observable events of a dispatch execution: a handler invoked (with the
`ctx.params` it observes), the router's outer `next` invoked (with the
`ctx.params` it observes), and a parameter being bound. -/
inductive Ev where
  | ran (h : Nat) (ctx : Ctx)
  | extNext (ctx : Ctx)
  | bound (name : String) (value : Path) (ctx : Ctx)

/-- An active scoped binding: (name, prior value, bound value). -/
abbrev Frame := String × Option Path × Path

/-- Restore every active binding to its prior value, innermost first. -/
def restoreFrames (fs : List Frame) (ctx : Ctx) : Ctx :=
  fs.foldl (fun c f => setJS f.1 f.2.1 c) ctx

/-- Invoking the `next` seen by the innermost dispatch: each wrapper restores
its prior value, the real outer `next` observes the resulting `ctx.params`,
and on the way back every wrapper re-binds its value. -/
def callNextAux (fs : List Frame) (ctx : Ctx) : List Ev × Ctx :=
  match fs with
  | [] => ([.extNext ctx], ctx)
  | f :: rest =>
    let ctx1 := setJS f.1 f.2.1 ctx
    let r := callNextAux rest ctx1
    (r.1, setJS f.1 (some f.2.2) r.2)

/-- Run one composed handler group: handlers run in order, each observing the
current `ctx.params`; a handler that does not call `next` stops the group
(and the rest of the dispatch). Returns whether every handler called through. -/
def runGroup (beh : Nat → Bool) (g : List Nat) (ctx : Ctx) : List Ev × Bool :=
  match g with
  | [] => ([], true)
  | h :: rest =>
    if beh h then
      let r := runGroup beh rest ctx
      (.ran h ctx :: r.1, r.2)
    else ([.ran h ctx], false)

/-- Execute a dispatch plan under handler behaviour `beh`, with the active
binding frames `fs` (the wrappers between this dispatch and the real outer
`next`) and the current `ctx.params`. Returns the event trace and the final
`ctx.params`. The `bind` case is `middlewareValueWrapper`: create
`ctx.params` if needed, capture the prior value, set the new value, run the
inner dispatch with the wrapper pushed, and restore the prior value on exit. -/
def runPlan (beh : Nat → Bool) : Plan → List Frame → Ctx → List Ev × Ctx
  | .callNext, fs, ctx => callNextAux fs ctx
  | .halt, _, ctx => ([], ctx)
  | .seq g rest, fs, ctx =>
    let r := runGroup beh g ctx
    if r.2 then
      let r2 := runPlan beh rest fs ctx
      (r.1 ++ r2.1, r2.2)
    else (r.1, ctx)
  | .bind name v inner, fs, ctx =>
    let ctx0 := ensureParams ctx
    let old := viewJS ctx0 name
    let ctx1 := setJS name (some v) ctx0
    let r := runPlan beh inner ((name, old, v) :: fs) ctx1
    (Ev.bound name v ctx1 :: r.1, setJS name old r.2)

/-- Whether a dispatch run under `beh` drives through to the fall-through
`next()`: every handler of every group on the spine calls `next`, reaching a
`callNext` tail (a `bind` hands control to the inner dispatch for good). -/
def completes (beh : Nat → Bool) : Plan → Bool
  | .callNext => true
  | .halt => false
  | .seq g rest => g.all beh && completes beh rest
  | .bind _ _ inner => completes beh inner

/-- The number of outer-`next` invocations in a trace. -/
def countExt (evs : List Ev) : Nat :=
  (evs.filter (fun e => match e with | .extNext _ => true | _ => false)).length

/-- The handler invocations of a trace, in order. -/
def ranSeq (evs : List Ev) : List Nat :=
  evs.filterMap (fun e => match e with | .ran h _ => some h | _ => none)

/-- Whether a trace contains a parameter bind. -/
def hasBound (evs : List Ev) : Bool :=
  evs.any (fun e => match e with | .bound _ _ _ => true | _ => false)

/-- The number of binds of `name` occurring anywhere in a plan. -/
def bindsName (name : String) : Plan → Nat
  | .callNext => 0
  | .halt => 0
  | .seq _ rest => bindsName name rest
  | .bind n _ inner => (if n = name then 1 else 0) + bindsName name inner

/-- Modify the node found at exactly `rem` below `n` (used to model `addData`
on the node object returned by `getNode`). -/
def modifyAtF (fuel : Nat) (n : RNode) (rem : Path) (f : RNode → RNode) : RNode :=
  if rem = [] then f n
  else
    match fuel with
    | 0 => n
    | fuel + 1 =>
      let cs := n.children
      let i := cs.findIdx (fun c => c.segment.isPrefixOf rem)
      match cs.get? i with
      | some c => n.withChildren (cs.set i (modifyAtF fuel c (rem.drop c.segment.length) f))
      | none => n

/-- `RouterNodeData.getMethodData(method, true)` followed by a mutation of the
returned method data: update in place when the key exists, otherwise append a
fresh entry (JS `Map.set` inserts new keys at the end) and update it. -/
def updMethodData (method : String) (upd : MData → MData) : RNode → RNode
  | .mk s cs md lp =>
    if md.any (fun e => e.1 == method) then
      .mk s cs (md.map (fun e => if e.1 == method then (e.1, upd e.2) else e)) lp
    else .mk s cs (md ++ [(method, upd ([], []))]) lp

/-- `Router.addMiddleware(method, path, stage, ...handlers)` for a literal
path (the path parser turns a parameter-free pattern into one literal
segment): get or create the node at `path`, then `addData` on its middleware. -/
def addMiddlewareR (root : RNode) (method : String) (path : Path) (stage : Int)
    (hs : List Nat) : RNode :=
  modifyAtF (sizeR root + path.length) (insertPath root path) path
    (updMethodData method (fun md => (addDataL md.1 stage hs, md.2)))

/-- `Router.addTerminator(method, path, stage, ...handlers)` for a literal path. -/
def addTerminatorR (root : RNode) (method : String) (path : Path) (stage : Int)
    (hs : List Nat) : RNode :=
  modifyAtF (sizeR root + path.length) (insertPath root path) path
    (updMethodData method (fun md => (md.1, addDataL md.2 stage hs)))

/-- Convenience: a string literal as a path. -/
def pstr (s : String) : Path := s.toList

/-- The dispatch's final-node acceptance: the node of the last yielded walk
item, provided the walk is exhausted there with an accepted remainder
(`isFinalRem`). -/
def finalNodeOf (strict : Bool) (root : RNode) (path : Path) : Option RNode :=
  match (walkD root path).getLast? with
  | some it => if isFinalRem strict it.2 then some it.1 else none
  | none => none

/-- Specification of the walk which the iterator's tail must satisfy, from
the spec's description of `walk(path)`: from a node with an effective
remainder, the walk is empty when the remainder is empty or no child's label
is a prefix of it; otherwise it yields a matching child paired with the
remainder after consuming the child's label, the caller may hand back a
replacement remaining path which is used from that point on, and the walk
continues from the child (ending immediately when the effective remainder
becomes empty). -/
inductive IterFollows : RNode → Path → List (Option Path) → List (RNode × Path) → Prop where
  | stopEmpty (n : RNode) (reps : List (Option Path)) : IterFollows n [] reps []
  | stopNoMatch (n : RNode) (rem : Path) (reps : List (Option Path))
      (h : ∀ c ∈ n.children, c.segment.isPrefixOf rem = false) :
      IterFollows n rem reps []
  | stepEnd (n c : RNode) (rem : Path) (reps : List (Option Path))
      (hmem : c ∈ n.children) (hpre : c.segment.isPrefixOf rem = true)
      (hstop : replOf reps (rem.drop c.segment.length) = []) :
      IterFollows n rem reps [(c, rem.drop c.segment.length)]
  | stepMore (n c : RNode) (rem : Path) (reps : List (Option Path)) (rest : List (RNode × Path))
      (hmem : c ∈ n.children) (hpre : c.segment.isPrefixOf rem = true)
      (hcont : replOf reps (rem.drop c.segment.length) ≠ [])
      (hrest : IterFollows c (replOf reps (rem.drop c.segment.length)) reps.tail rest) :
      IterFollows n rem reps ((c, rem.drop c.segment.length) :: rest)

def mdMidOf (md : Option MData) : List (Int × Nat) :=
  match md with
  | some md => md.1
  | none => []

def mdTermOf (md : Option MData) : List (Int × Nat) :=
  match md with
  | some md => md.2
  | none => []

/-- The spec's ordered before-terminator group at tuple level: the six
StagedArrays of section 4.4 in priority order (node path-middleware, the
gathered arrays in gathered order, node path-terminators, HEAD middleware,
method middleware, ALL middleware), all included whether empty or not,
concatenated and stably sorted by stage. -/
def specMergedTuples (n : RNode) (accum : List (List (Int × Nat)))
    (headData methodData allData : Option MData) : List (Int × Nat) :=
  ((mdMidOf (getMethodData n smMIDDLEWARE) :: accum) ++
    [mdTermOf (getMethodData n smMIDDLEWARE), mdMidOf headData, mdMidOf methodData,
      mdMidOf allData]).flatten.mergeSort stageLe

/-- A regex environment with no regexes (none are registered). -/
def noRegex : RegexEnv := fun _ _ => none

/-- The section 8 scenario 1 registration, at `/`: path middleware m0, m10,
m-5, m5 (handler ids 0, 1, 2, 3) at stages 0, 10, -5, 5; GET middleware g
(id 4) at stage -2; ALL middleware a (id 5) at stage -3; ALL terminator T
(id 6) at stage 0. -/
def scenarioRouter1 : RNode :=
  addTerminatorR
    (addMiddlewareR
      (addMiddlewareR
        (addMiddlewareR
          (addMiddlewareR
            (addMiddlewareR
              (addMiddlewareR emptyRNode smMIDDLEWARE (pstr "/") 0 [0])
              smMIDDLEWARE (pstr "/") 10 [1])
            smMIDDLEWARE (pstr "/") (-5) [2])
          smMIDDLEWARE (pstr "/") 5 [3])
        "GET" (pstr "/") (-2) [4])
      smALL (pstr "/") (-3) [5])
    smALL (pstr "/") 0 [6]


/-- Fixture: a router with a single GET terminator (handler 20) at `/about`. -/
def aboutRouter : RNode := addTerminatorR emptyRNode "GET" (pstr "/about") 0 [20]

/-- The `/about` node of `aboutRouter`. -/
def aboutNode : RNode := .mk (pstr "/about") [] [("GET", ([], [((0 : Int), 20)]))] []

/-- Fixture: a small tree for the iterator witness. -/
def iterTree : RNode := .mk rootLabel [.mk (pstr "ab") [.mk (pstr "b") [] [] []] [] []] [] []

/-- Fixture: replies sent to the iterator: none at the first yield, a
replacement remaining path "b" at the second. -/
def iterReps : List (Option Path) := [none, some (pstr "b")]

/-- Fixture: a two-child tree with distinct first characters. -/
def uniqTree : RNode := .mk rootLabel [.mk (pstr "ax") [] [] [], .mk (pstr "b") [] [] []] [] []


/-- Fixture: a router with a single GET terminator (handler 9) at `/`. -/
def slashRouter : RNode := addTerminatorR emptyRNode "GET" (pstr "/") 0 [9]


/-- The net effect of `callNextAux` on `ctx.params`: each wrapper restores its
prior value before the inner call and re-binds its value afterwards. -/
def applyReFrames (fs : List Frame) (ctx : Ctx) : Ctx :=
  match fs with
  | [] => ctx
  | f :: rest => setJS f.1 (some f.2.2) (applyReFrames rest (setJS f.1 f.2.1 ctx))


/-- All entries of `ctx.params` carry a real (non-`undefined`) value: the
well-formedness JS object semantics maintains here, since the parameter
setter deletes the key instead of ever storing `undefined`. -/
def wfCtx (ctx : Ctx) : Bool :=
  match ctx with
  | none => true
  | some l => l.all (fun e => e.2.isSome)

/-- The prior value recorded by the last frame of `fs` naming `m`, if any:
the value `restoreFrames` leaves under key `m`. -/
def lastFrameVal (fs : List Frame) (m : String) : Option (Option Path) :=
  match fs with
  | [] => none
  | f :: rest =>
    match lastFrameVal rest m with
    | some r => some r
    | none => if f.1 == m then some f.2.1 else none


/-- Fixture: a node with HEAD middleware (id 30), GET middleware (id 31) and
a GET terminator (id 32), but no HEAD terminators. -/
def headNode : RNode :=
  .mk (pstr "/h") []
    [("HEAD", ([((0 : Int), 30)], [])), ("GET", ([((0 : Int), 31)], [((0 : Int), 32)]))] []


/-- Fixture: a node with a single parameter branch `:id` (no regex, single
segment) whose sub-tree root is labelled "x". -/
def paramNode : RNode :=
  .mk (pstr "/u/") [] [] [((0 : Int), ("id", none, false, RNode.fresh (pstr "x")))]

end Butterfly

-- ===================== theorems =====================

namespace Butterfly

theorem stageLe_trans {D : Type} (a b c : Int × D) (h1 : stageLe a b = true) (h2 : stageLe b c = true) :
    stageLe a c = true := by
  simp only [stageLe, decide_eq_true_eq] at *
  omega

theorem stageLe_total {D : Type} (a b : Int × D) : (stageLe a b || stageLe b a) = true := by
  simp only [stageLe, Bool.or_eq_true, decide_eq_true_eq]
  omega

/-- Stability of the JS sort: filtering one stage out of the merge-sorted
list gives the same entries, in the same order, as filtering the input. -/
theorem stageFilter_mergeSort {D : Type} (l : List (Int × D)) (s : Int) :
    stageFilter s (l.mergeSort stageLe) = stageFilter s l := by
  have hidem : (stageFilter s l).filter (fun e => decide (e.1 = s)) = stageFilter s l := by
    simp [stageFilter, List.filter_filter]
  have hsub : (stageFilter s l).Sublist (l.mergeSort stageLe) := by
    apply List.sublist_mergeSort
    · exact fun a b c => stageLe_trans a b c
    · exact fun a b => stageLe_total a b
    · apply List.pairwise_of_forall_mem_list
      intro a ha b hb
      have ha2 := (List.mem_filter.mp ha).2
      have hb2 := (List.mem_filter.mp hb).2
      simp only [decide_eq_true_eq] at ha2 hb2
      simp only [stageLe, decide_eq_true_eq]
      omega
    · exact List.filter_sublist l
  have hsub2 : (stageFilter s l).Sublist (stageFilter s (l.mergeSort stageLe)) := by
    have h := hsub.filter (fun e => decide (e.1 = s))
    rwa [hidem] at h
  have hperm : (stageFilter s (l.mergeSort stageLe)).Perm (stageFilter s l) :=
    (List.mergeSort_perm l stageLe).filter _
  exact (hsub2.eq_of_length hperm.length_eq.symm).symm

theorem findIdx_eq_length_takeWhile {A : Type} (p : A → Bool) (l : List A) :
    l.findIdx p = (l.takeWhile (fun a => ! p a)).length := by
  induction l with
  | nil => simp
  | cons a t ih =>
    by_cases h : p a
    · simp [List.findIdx_cons, h, List.takeWhile_cons]
    · simp [List.findIdx_cons, h, List.takeWhile_cons, ih]

theorem take_length_takeWhile {A : Type} (p : A → Bool) (l : List A) :
    l.take (l.takeWhile p).length = l.takeWhile p := by
  induction l with
  | nil => simp
  | cons a t ih =>
    rw [List.takeWhile_cons]
    by_cases h : p a
    · simp only [h, if_pos, List.length_cons, List.take_succ_cons, ih]
    · simp [h]

theorem drop_length_takeWhile {A : Type} (p : A → Bool) (l : List A) :
    l.drop (l.takeWhile p).length = l.dropWhile p := by
  induction l with
  | nil => simp
  | cons a t ih =>
    rw [List.takeWhile_cons, List.dropWhile_cons]
    by_cases h : p a
    · simp only [h, if_pos, List.length_cons, List.drop_succ_cons, ih]
    · simp [h]

theorem mem_of_getLast?_eq {A : Type} {l : List A} {e : A} (h : l.getLast? = some e) : e ∈ l := by
  have hne : l ≠ [] := by rintro rfl; simp at h
  rw [List.getLast?_eq_getLast l hne] at h
  cases h
  exact List.getLast_mem hne

theorem sorted_mem_le_getLast {D : Type} {l : List (Int × D)} {e x : Int × D}
    (hs : sortedByStage l) (hl : l.getLast? = some e) (hx : x ∈ l) : x.1 ≤ e.1 := by
  induction l with
  | nil => cases hx
  | cons a t ih =>
    cases t with
    | nil =>
      simp only [List.getLast?_singleton, Option.some.injEq] at hl
      simp only [List.mem_singleton] at hx
      subst hl; subst hx; exact le_refl _
    | cons b t2 =>
      rw [List.getLast?_cons_cons] at hl
      rcases List.mem_cons.mp hx with rfl | hx2
      · have he : e ∈ b :: t2 := mem_of_getLast?_eq hl
        exact (List.pairwise_cons.mp hs).1 e he
      · exact ih (List.pairwise_cons.mp hs).2 hl hx2

theorem sorted_dropWhile_gt {D : Type} {l : List (Int × D)} {s : Int}
    (hs : sortedByStage l) :
    ∀ x ∈ l.dropWhile (fun e => decide (e.1 ≤ s)), s < x.1 := by
  induction l with
  | nil => intro x hx; simp at hx
  | cons a t ih =>
    intro x hx
    rw [List.dropWhile_cons] at hx
    by_cases ha : a.1 ≤ s
    · simp only [decide_eq_true_eq, ha, if_pos] at hx
      exact ih (List.pairwise_cons.mp hs).2 x hx
    · simp only [decide_eq_true_eq, ha, if_neg, if_false] at hx
      rcases List.mem_cons.mp hx with rfl | hx2
      · omega
      · have := (List.pairwise_cons.mp hs).1 x hx2
        omega

/-- On a stage-ordered list, `addData` splices new items after every entry of
stage at most `stage` and before every entry of strictly greater stage. -/
theorem addDataL_sorted_eq {D : Type} (l : List (Int × D)) (s : Int) (ds : List D)
    (hs : sortedByStage l) :
    addDataL l s ds =
      l.takeWhile (fun e => decide (e.1 ≤ s)) ++ ds.map (fun d => (s, d))
        ++ l.dropWhile (fun e => decide (e.1 ≤ s)) := by
  unfold addDataL
  cases hl : l.getLast? with
  | none =>
    have : l = [] := List.getLast?_eq_none_iff.mp hl
    subst this
    simp [spliceStart]
  | some e =>
    by_cases he : e.1 ≤ s
    · have hall : ∀ x ∈ l, decide (x.1 ≤ s) = true := by
        intro x hx
        simp only [decide_eq_true_eq]
        exact le_trans (sorted_mem_le_getLast hs hl hx) he
      have htw : l.takeWhile (fun e => decide (e.1 ≤ s)) = l :=
        List.takeWhile_eq_self_iff.mpr hall
      have hdw : l.dropWhile (fun e => decide (e.1 ≤ s)) = [] :=
        List.dropWhile_eq_nil_iff.mpr hall
      simp only [he, if_pos]
      have hss : spliceStart (l.length : Int) l.length = l.length := by
        simp [spliceStart]
      rw [hss, htw, hdw, List.take_length, List.drop_length]
    · have hmem : e ∈ l := mem_of_getLast?_eq hl
      have hany : l.any (fun q => decide (s < q.1)) = true := by
        rw [List.any_eq_true]
        exact ⟨e, hmem, by simp; omega⟩
      have hfi : l.findIdx (fun q => decide (s < q.1)) < l.length :=
        List.findIdx_lt_length.mpr (by rw [List.any_eq_true] at hany; exact hany)
      have hlen : l.findIdx (fun q => decide (s < q.1))
          = (l.takeWhile (fun e => decide (e.1 ≤ s))).length := by
        rw [findIdx_eq_length_takeWhile]
        have hfun : (fun a : Int × D => ! decide (s < a.1)) = (fun e : Int × D => decide (e.1 ≤ s)) := by
          funext x
          rw [← decide_not]
          exact decide_eq_decide.mpr (by omega)
        rw [hfun]
      simp only [he, if_neg, if_false, jsFindIndex, hany, if_pos]
      have hss : spliceStart ((l.findIdx fun q => decide (s < q.1) : Nat) : Int) l.length
          = (l.takeWhile (fun e => decide (e.1 ≤ s))).length := by
        simp only [spliceStart]
        rw [if_neg (by omega)]
        simp only [Int.toNat_natCast]
        rw [← hlen]
        omega
      rw [hss]
      have htake : l.take (l.takeWhile (fun e => decide (e.1 ≤ s))).length
          = l.takeWhile (fun e => decide (e.1 ≤ s)) := take_length_takeWhile ..
      have hdrop : l.drop (l.takeWhile (fun e => decide (e.1 ≤ s))).length
          = l.dropWhile (fun e => decide (e.1 ≤ s)) := drop_length_takeWhile ..
      rw [htake, hdrop]

theorem sortedByStage_addDataL {D : Type} (l : List (Int × D)) (s : Int) (ds : List D)
    (hs : sortedByStage l) : sortedByStage (addDataL l s ds) := by
  rw [addDataL_sorted_eq l s ds hs]
  unfold sortedByStage at *
  rw [List.pairwise_append, List.pairwise_append]
  refine ⟨⟨hs.sublist (List.takeWhile_sublist _), ?_, ?_⟩, hs.sublist (List.dropWhile_sublist _), ?_⟩
  · apply List.pairwise_of_forall_mem_list
    intro a ha b hb
    rcases List.mem_map.mp ha with ⟨d1, _, rfl⟩
    rcases List.mem_map.mp hb with ⟨d2, _, rfl⟩
    exact le_refl _
  · intro a ha b hb
    have h1 := List.mem_takeWhile_imp ha
    simp only [decide_eq_true_eq] at h1
    rcases List.mem_map.mp hb with ⟨d, _, rfl⟩
    exact h1
  · intro a ha b hb
    have h2 := sorted_dropWhile_gt hs b hb
    rcases List.mem_append.mp ha with h1 | h1
    · have := List.mem_takeWhile_imp h1
      simp only [decide_eq_true_eq] at this
      omega
    · rcases List.mem_map.mp h1 with ⟨d, _, rfl⟩
      simp only
      omega

theorem stageFilter_addDataL {D : Type} (l : List (Int × D)) (s s2 : Int) (ds : List D)
    (hs : sortedByStage l) :
    stageFilter s2 (addDataL l s ds) =
      if s2 = s then stageFilter s2 l ++ ds.map (fun d => (s, d)) else stageFilter s2 l := by
  rw [addDataL_sorted_eq l s ds hs]
  unfold stageFilter
  rw [List.filter_append, List.filter_append]
  have hl : l.filter (fun e => decide (e.1 = s2))
      = (l.takeWhile (fun e => decide (e.1 ≤ s))).filter (fun e => decide (e.1 = s2))
        ++ (l.dropWhile (fun e => decide (e.1 ≤ s))).filter (fun e => decide (e.1 = s2)) := by
    rw [← List.filter_append, List.takeWhile_append_dropWhile]
  by_cases hcase : s2 = s
  · subst hcase
    have hmid : (ds.map (fun d => (s2, d))).filter (fun e => decide (e.1 = s2))
        = ds.map (fun d => (s2, d)) := by
      rw [List.filter_eq_self]
      intro x hx
      rcases List.mem_map.mp hx with ⟨d, _, rfl⟩
      simp
    have hdw : (l.dropWhile (fun e => decide (e.1 ≤ s2))).filter (fun e => decide (e.1 = s2)) = [] := by
      rw [List.filter_eq_nil_iff]
      intro x hx
      have := sorted_dropWhile_gt hs x hx
      simp only [decide_eq_true_eq]
      omega
    rw [hmid, hdw, if_pos rfl, hl, hdw]
    simp
  · have hmid : (ds.map (fun d => (s, d))).filter (fun e => decide (e.1 = s2)) = [] := by
      rw [List.filter_eq_nil_iff]
      intro x hx
      rcases List.mem_map.mp hx with ⟨d, _, rfl⟩
      simp only [decide_eq_true_eq]
      omega
    rw [hmid, if_neg hcase, hl]
    simp

theorem foldl_addDataL_sorted {D : Type} (calls : List (Int × List D)) :
    ∀ l : List (Int × D), sortedByStage l →
      sortedByStage (calls.foldl (fun acc c => addDataL acc c.1 c.2) l) := by
  induction calls with
  | nil => intro l hl; simpa using hl
  | cons c rest ih =>
    intro l hl
    exact ih _ (sortedByStage_addDataL l c.1 c.2 hl)

theorem foldl_addDataL_filter {D : Type} (calls : List (Int × List D)) :
    ∀ l : List (Int × D), sortedByStage l → ∀ s : Int,
      stageFilter s (calls.foldl (fun acc c => addDataL acc c.1 c.2) l)
        = stageFilter s l ++ stageFilter s (flatCalls calls) := by
  induction calls with
  | nil =>
    intro l _ s
    simp [flatCalls, stageFilter]
  | cons c rest ih =>
    intro l hl s
    have h1 := ih (addDataL l c.1 c.2) (sortedByStage_addDataL l c.1 c.2 hl) s
    simp only [List.foldl_cons] at *
    rw [h1, stageFilter_addDataL l c.1 s c.2 hl]
    have hflat : flatCalls (c :: rest) = c.2.map (fun d => (c.1, d)) ++ flatCalls rest := by
      simp [flatCalls]
    rw [hflat]
    unfold stageFilter
    rw [List.filter_append]
    by_cases hcase : s = c.1
    · subst hcase
      have hmid : (c.2.map (fun d => (c.1, d))).filter (fun e => decide (e.1 = c.1))
          = c.2.map (fun d => (c.1, d)) := by
        rw [List.filter_eq_self]
        intro x hx
        rcases List.mem_map.mp hx with ⟨d, _, rfl⟩
        simp
      rw [if_pos rfl, hmid, List.append_assoc]
    · have hmid : (c.2.map (fun d => (c.1, d))).filter (fun e => decide (e.1 = s)) = [] := by
        rw [List.filter_eq_nil_iff]
        intro x hx
        rcases List.mem_map.mp hx with ⟨d, _, rfl⟩
        simp only [decide_eq_true_eq]
        omega
      rw [if_neg hcase, hmid]
      rfl

theorem filter_flatten_eq {A : Type} (p : A → Bool) (ls : List (List A)) :
    (ls.flatten).filter p = (ls.map (List.filter p)).flatten := by
  induction ls with
  | nil => simp
  | cons a rest ih => simp [List.filter_append, ih]

/-- The tuple-level merge of any family of stage-ordered staged lists is
stage-ordered and, stage by stage, concatenates the inputs in argument order. -/
theorem jsSortTuples_sorted_filter {D : Type} (ls : List (List (Int × D)))
    (hws : ∀ l ∈ ls, sortedByStage l) :
    sortedByStage (jsSortTuples ls) ∧
    ∀ s : Int, stageFilter s (jsSortTuples ls) = (ls.map (stageFilter s)).flatten := by
  match ls with
  | [] => simp [jsSortTuples, stageFilter, sortedByStage]
  | [a] =>
    refine ⟨hws a (by simp), ?_⟩
    intro s
    simp [jsSortTuples]
  | a :: b :: rest =>
    have hself : jsSortTuples (a :: b :: rest) = ((a :: b :: rest).flatten).mergeSort stageLe := by
      simp [jsSortTuples]
    rw [hself]
    constructor
    · have h := @List.sorted_mergeSort _ stageLe
        (fun x y z => stageLe_trans x y z) (fun x y => stageLe_total x y)
        ((a :: b :: rest).flatten)
      unfold sortedByStage
      exact h.imp (fun hxy => by simpa [stageLe] using hxy)
    · intro s
      rw [show stageFilter s (((a :: b :: rest).flatten).mergeSort stageLe)
            = stageFilter s ((a :: b :: rest).flatten) from stageFilter_mergeSort _ s]
      unfold stageFilter
      exact filter_flatten_eq _ _

/-- C4: after any sequence of `addData` calls a `StagedArray`'s view is
ordered by stage ascending with equal-stage items in insertion order
(stage-sorted, and stage-by-stage identical to the raw insertion sequence);
and for every non-empty family of `StagedArray`s, `StagedArray.sort` is the
stable merge by stage: its tuple list is stage-sorted and, at each stage,
concatenates the entries of the arguments in argument order, preserving each
instance's insertion order. -/
theorem claim_C4 :
    (∀ (D : Type) (calls : List (Int × List D)),
        sortedByStage (buildStaged calls).stagedData ∧
        ∀ s : Int, stageFilter s (buildStaged calls).stagedData = stageFilter s (flatCalls calls))
    ∧ (∀ (D : Type) (sas : List (StagedArray D)), sas ≠ [] →
        (∀ sa ∈ sas, sortedByStage sa.stagedData) →
        StagedArray.sort sas = (jsSortTuples (sas.map StagedArray.stagedData)).map Prod.snd ∧
        sortedByStage (jsSortTuples (sas.map StagedArray.stagedData)) ∧
        ∀ s : Int, stageFilter s (jsSortTuples (sas.map StagedArray.stagedData))
          = (sas.map (fun sa => stageFilter s sa.stagedData)).flatten) := by
  constructor
  · intro D calls
    constructor
    · exact foldl_addDataL_sorted calls [] (by simp [sortedByStage])
    · intro s
      have h := foldl_addDataL_filter calls [] (by simp [sortedByStage]) s
      simpa [buildStaged, stageFilter] using h
  · intro D sas _ hws
    have hws2 : ∀ l ∈ sas.map StagedArray.stagedData, sortedByStage l := by
      intro l hl
      rcases List.mem_map.mp hl with ⟨sa, hsa, rfl⟩
      exact hws sa hsa
    have h := jsSortTuples_sorted_filter (sas.map StagedArray.stagedData) hws2
    refine ⟨rfl, h.1, ?_⟩
    intro s
    rw [h.2 s, List.map_map]
    rfl

/-- Witness for C4 at a concrete input: two singleton arrays with equal
stages merge with the first argument's item first. -/
theorem claim_C4_witness :
    StagedArray.sort [(⟨[((0 : Int), (10 : Nat))]⟩ : StagedArray Nat), ⟨[((0 : Int), (20 : Nat))]⟩]
      = [10, 20] ∧
    sortedByStage (buildStaged [((5 : Int), [(7 : Nat)]), ((0 : Int), [8])]).stagedData := by
  constructor
  · have h := claim_C4.2 Nat [⟨[((0 : Int), (10 : Nat))]⟩, ⟨[((0 : Int), (20 : Nat))]⟩]
      (by simp)
      (by
        intro sa hsa
        rcases List.mem_cons.mp hsa with rfl | hsa2
        · simp [sortedByStage]
        · rcases List.mem_cons.mp hsa2 with rfl | hsa3
          · simp [sortedByStage]
          · cases hsa3)
    rw [h.1]
    simp [jsSortTuples, List.mergeSort, stageLe]
  · have h := (claim_C4.1 Nat [((5 : Int), [(7 : Nat)]), ((0 : Int), [8])]).1
    exact h


theorem sizeR_pos (n : RNode) : 0 < sizeR n := by
  cases n
  simp [sizeR]

theorem sizeR_le_sizeChildrenR {c : RNode} {cs : List RNode} (h : c ∈ cs) :
    sizeR c ≤ sizeChildrenR cs := by
  induction cs with
  | nil => cases h
  | cons a rest ih =>
    rcases List.mem_cons.mp h with rfl | h2
    · simp [sizeChildrenR]
    · have := ih h2
      simp only [sizeChildrenR]
      omega

theorem sizeR_lt_of_mem_children {c n : RNode} (h : c ∈ n.children) : sizeR c < sizeR n := by
  cases n with
  | mk s cs m p =>
    simp only [RNode.children] at h
    have h1 := sizeR_le_sizeChildrenR h
    simp only [sizeR]
    omega

theorem iterSteps_congr : ∀ (f1 f2 : Nat) (n : RNode) (rem : Path) (reps : List (Option Path)),
    sizeR n ≤ f1 → sizeR n ≤ f2 → iterSteps f1 n rem reps = iterSteps f2 n rem reps := by
  intro f1
  induction f1 with
  | zero =>
    intro f2 n rem reps h1 _
    have := sizeR_pos n
    omega
  | succ f ih =>
    intro f2 n rem reps h1 h2
    cases f2 with
    | zero =>
      have := sizeR_pos n
      omega
    | succ g =>
      simp only [iterSteps]
      cases hf : n.children.find? (fun c => c.segment.isPrefixOf rem) with
      | none => rfl
      | some c =>
        have hc : c ∈ n.children := List.mem_of_find?_eq_some hf
        have hlt : sizeR c < sizeR n := sizeR_lt_of_mem_children hc
        simp only
        congr 1
        split
        · rfl
        · exact ih g c _ _ (by omega) (by omega)

theorem iterSteps_decompose : ∀ (fuel : Nat) (n : RNode) (rem : Path) (b : RNode) (rb : Path),
    (b, rb) ∈ iterSteps fuel n rem [] → ∃ pre, rem = pre ++ rb := by
  intro fuel
  induction fuel with
  | zero =>
    intro n rem b rb h
    simp [iterSteps] at h
  | succ f ih =>
    intro n rem b rb h
    simp only [iterSteps] at h
    cases hf : n.children.find? (fun c => c.segment.isPrefixOf rem) with
    | none => rw [hf] at h; simp at h
    | some c =>
      rw [hf] at h
      have hpre : c.segment.isPrefixOf rem = true := by
        have := List.find?_some hf
        simpa using this
      have hdec : rem = c.segment ++ rem.drop c.segment.length := by
        rcases List.isPrefixOf_iff_prefix.mp hpre with ⟨t, ht⟩
        have hdrop : rem.drop c.segment.length = t := by
          rw [← ht, List.drop_left]
        rw [hdrop, ht]
      rcases List.mem_cons.mp h with heq | hmem
      · have hb : b = c ∧ rb = rem.drop c.segment.length := by
          constructor
          · exact congrArg Prod.fst heq
          · exact congrArg Prod.snd heq
        exact ⟨c.segment, by rw [hb.2]; exact hdec⟩
      · rw [show replOf ([] : List (Option Path)) (rem.drop c.segment.length)
              = rem.drop c.segment.length from rfl] at hmem
        by_cases hr : rem.drop c.segment.length = []
        · rw [if_pos hr] at hmem
          simp at hmem
        · rw [if_neg hr] at hmem
          simp only [List.tail_nil] at hmem
          rcases ih c (rem.drop c.segment.length) b rb hmem with ⟨pre2, hpre2⟩
          exact ⟨c.segment ++ pre2, by rw [hdec, hpre2, List.append_assoc]⟩

theorem walkD_mem_decompose {root : RNode} {path : Path} {b : RNode} {rb : Path}
    (h : (b, rb) ∈ walkD root path) : ∃ pre, path = pre ++ rb := by
  unfold walkD nodeIterator at h
  rcases List.mem_cons.mp h with heq | hmem
  · exact ⟨[], by simpa using (congrArg Prod.snd heq).symm⟩
  · rw [show firstEff path ([] : List (Option Path)) = path from rfl] at hmem
    by_cases hp : path = []
    · rw [if_pos hp] at hmem
      simp at hmem
    · rw [if_neg hp] at hmem
      exact iterSteps_decompose (sizeR root) root path b rb hmem


theorem iterSteps_follows : ∀ (fuel : Nat) (n : RNode) (rem : Path) (reps : List (Option Path)),
    sizeR n ≤ fuel → rem ≠ [] → IterFollows n rem reps (iterSteps fuel n rem reps) := by
  intro fuel
  induction fuel with
  | zero =>
    intro n _ _ h1 _
    have := sizeR_pos n
    omega
  | succ f ih =>
    intro n rem reps h1 hne
    simp only [iterSteps]
    cases hf : n.children.find? (fun c => c.segment.isPrefixOf rem) with
    | none =>
      apply IterFollows.stopNoMatch
      intro c hc
      have h2 := List.find?_eq_none.mp hf c hc
      simp only [Bool.not_eq_true] at h2
      exact h2
    | some c =>
      have hc : c ∈ n.children := List.mem_of_find?_eq_some hf
      have hpre : c.segment.isPrefixOf rem = true := by
        have := List.find?_some hf
        simpa using this
      have hlt := sizeR_lt_of_mem_children hc
      show IterFollows n rem reps
        ((c, rem.drop c.segment.length) ::
          if replOf reps (rem.drop c.segment.length) = [] then []
          else iterSteps f c (replOf reps (rem.drop c.segment.length)) reps.tail)
      by_cases hr : replOf reps (rem.drop c.segment.length) = []
      · rw [if_pos hr]
        exact IterFollows.stepEnd n c rem reps hc hpre hr
      · rw [if_neg hr]
        exact IterFollows.stepMore n c rem reps _ hc hpre hr (ih c _ reps.tail (by omega) hr)

/-- C9: for every node, path and sequence of handed-back replacement paths,
the walk iterator yields first the starting node with the full supplied path;
its remaining yields satisfy the walk specification `IterFollows` — each
successful descent yields the child whose label is a prefix of the effective
remainder together with the post-consumption remainder, a replacement handed
back at a yield is used as the remainder from that point on, and the iteration
ends exactly when the effective remainder is empty or no child label is a
prefix of it; moreover when no two children share a first character (and none
has an empty label), the matching child is unique. -/
theorem claim_C9 : ∀ (n : RNode) (path : Path) (reps : List (Option Path)),
    (nodeIterator n path reps).head? = some (n, path) ∧
    IterFollows n (firstEff path reps) reps.tail ((nodeIterator n path reps).tail) ∧
    (∀ c1 c2 : RNode, ∀ rem : Path,
      n.children.Pairwise (fun a b => a.segment.head? ≠ b.segment.head?) →
      c1 ∈ n.children → c2 ∈ n.children → c1.segment ≠ [] → c2.segment ≠ [] →
      c1.segment.isPrefixOf rem = true → c2.segment.isPrefixOf rem = true → c1 = c2) := by
  intro n path reps
  refine ⟨rfl, ?_, ?_⟩
  · show IterFollows n (firstEff path reps) reps.tail
      (if firstEff path reps = [] then [] else iterSteps (sizeR n) n (firstEff path reps) reps.tail)
    by_cases hr : firstEff path reps = []
    · rw [if_pos hr, hr]
      exact IterFollows.stopEmpty n reps.tail
    · rw [if_neg hr]
      exact iterSteps_follows (sizeR n) n _ reps.tail (le_refl _) hr
  · intro c1 c2 rem hpw h1 h2 hne1 hne2 hp1 hp2
    by_contra hne
    have hheads := hpw.forall (fun a b hab => hab.symm) h1 h2 hne
    rcases hs1 : c1.segment with _ | ⟨x1, t1⟩
    · exact hne1 hs1
    rcases hs2 : c2.segment with _ | ⟨x2, t2⟩
    · exact hne2 hs2
    rcases List.isPrefixOf_iff_prefix.mp hp1 with ⟨u1, hu1⟩
    rcases List.isPrefixOf_iff_prefix.mp hp2 with ⟨u2, hu2⟩
    rw [hs1] at hu1
    rw [hs2] at hu2
    have hx : x1 = x2 := by
      have e1 : rem.head? = some x1 := by rw [← hu1]; rfl
      have e2 : rem.head? = some x2 := by rw [← hu2]; rfl
      rw [e1] at e2
      exact (Option.some.injEq _ _).mp e2
    apply hheads
    rw [hs1, hs2, hx]
    rfl

/-- C7: with `strictSlashes` disabled (the default) a terminal walk position
with exactly `/` remaining is accepted as a final-node match, and with it
enabled the same position is rejected; and any accepted final-node match
decomposes the request path as the consumed node path followed by the
(empty or `/`) remainder, so that a consumed node path ending in `/` forces
the request path to end in `/` as well. -/
theorem claim_C7 :
    (∀ (root : RNode) (path : Path) (m : RNode),
        (walkD root path).getLast? = some (m, pstr "/") →
        finalNodeOf false root path = some m ∧ finalNodeOf true root path = none)
    ∧ (∀ (strict : Bool) (root : RNode) (path : Path) (m : RNode),
        finalNodeOf strict root path = some m →
        ∃ pre r, (walkD root path).getLast? = some (m, r) ∧ path = pre ++ r ∧
          (r = [] ∨ r = pstr "/") ∧
          (pre.getLast? = some '/' → path.getLast? = some '/')) := by
  constructor
  · intro root path m h
    constructor
    · unfold finalNodeOf
      rw [h]
      simp [isFinalRem, pstr]
    · unfold finalNodeOf
      rw [h]
      simp [isFinalRem, pstr]
  · intro strict root path m h
    unfold finalNodeOf at h
    cases hL : (walkD root path).getLast? with
    | none => rw [hL] at h; cases h
    | some it =>
      rw [hL] at h
      have h2 : (if isFinalRem strict it.2 = true then some it.1 else none) = some m := h
      by_cases hf : isFinalRem strict it.2 = true
      · rw [if_pos hf] at h2
        have hm : it.1 = m := by
          cases h2
          rfl
        have hmem : (m, it.2) ∈ walkD root path := by
          rw [← hm]
          exact mem_of_getLast?_eq hL
        rcases walkD_mem_decompose hmem with ⟨pre, hpre⟩
        refine ⟨pre, it.2, by rw [← hm], hpre, ?_, ?_⟩
        · unfold isFinalRem at hf
          simp only [Bool.or_eq_true, Bool.and_eq_true, List.isEmpty_iff, beq_iff_eq] at hf
          rcases hf with hf | hf
          · exact Or.inl hf
          · exact Or.inr hf.2
        · intro hpe
          unfold isFinalRem at hf
          simp only [Bool.or_eq_true, Bool.and_eq_true, List.isEmpty_iff, beq_iff_eq] at hf
          rcases hf with hf | hf
          · rw [hpre, hf, List.append_nil]
            exact hpe
          · rw [hpre, hf.2]
            exact List.getLast?_concat _
      · rw [if_neg hf] at h2
        cases h2


/-- C3 (the claim holds as intended but the code has a bug): after registering
`/aa` then `/ab` from an empty root, both are findable by exact find and the
intermediate node `/a` exists; but find-or-create recoverability fails in
general: `Node.findAll` splices with `this.children.indexOf(bestNode)` instead
of `node.children.indexOf(bestNode)`, so after find-or-create of `/a/yy`,
`/a/x` and `/a/yz` the path `/a/x` (previously findable) is no longer found by
an exact find, and the node at `/a/` has two children that share the first
character `y`. -/
theorem claim_C3 :
    ((findExact (insertPath (insertPath emptyRNode (pstr "/aa")) (pstr "/ab")) (pstr "/aa")).isSome
        = true
      ∧ (findExact (insertPath (insertPath emptyRNode (pstr "/aa")) (pstr "/ab")) (pstr "/ab")).isSome
        = true
      ∧ (findExact (insertPath (insertPath emptyRNode (pstr "/aa")) (pstr "/ab")) (pstr "/a")).map
          (fun nd => nd.segment) = some (pstr "/a"))
    ∧ ((findExact (insertPath (insertPath emptyRNode (pstr "/a/yy")) (pstr "/a/x"))
          (pstr "/a/x")).isSome = true
      ∧ findExact (insertPath (insertPath (insertPath emptyRNode (pstr "/a/yy")) (pstr "/a/x"))
          (pstr "/a/yz")) (pstr "/a/x") = none
      ∧ (findExact (insertPath (insertPath (insertPath emptyRNode (pstr "/a/yy")) (pstr "/a/x"))
          (pstr "/a/yz")) (pstr "/a/")).map (fun nd => nd.children.map (fun c => c.segment.head?))
          = some [some 'y', some 'y']) := by
  refine ⟨⟨?_, ?_, ?_⟩, ?_, ?_, ?_⟩ <;>
    simp +decide [pstr, emptyRNode, RNode.fresh, rootLabel, insertPath, insertF, findExact,
      findExactF, splitOrAppend, sizeR, sizeChildrenR, sizeParamsR, spliceStart, commonLength,
      RNode.children, RNode.segment, RNode.withChildren, RNode.withSegment,
      List.isPrefixOf, List.findIdx, List.findIdx.go, List.find?]

/-- Witness for C7 at the `/about` router: a GET request for `/about/` is
accepted as a final-node match by default and rejected under strict slashes. -/
theorem claim_C7_witness :
    finalNodeOf false aboutRouter (pstr "/about/") = some aboutNode ∧
    finalNodeOf true aboutRouter (pstr "/about/") = none := by
  apply claim_C7.1 aboutRouter (pstr "/about/") aboutNode
  simp +decide [aboutRouter, aboutNode, pstr, emptyRNode, RNode.fresh, rootLabel, insertPath,
    insertF, splitOrAppend, sizeR, sizeChildrenR, sizeParamsR, spliceStart, commonLength,
    RNode.children, RNode.segment, RNode.withChildren, RNode.withSegment, walkD, nodeIterator,
    iterSteps, firstEff, replOf, addTerminatorR, modifyAtF, updMethodData, addDataL,
    jsFindIndex, List.isPrefixOf, List.findIdx, List.findIdx.go, List.find?]

/-- Witness for C9 at a concrete tree, path and replacement reply: the first
yield carries the full path, the remaining yields satisfy the walk
specification, and in a tree whose children have distinct first characters
the matching child is unique. -/
theorem claim_C9_witness :
    (nodeIterator iterTree (pstr "abZZ") iterReps).head? = some (iterTree, pstr "abZZ") ∧
    IterFollows iterTree (firstEff (pstr "abZZ") iterReps) iterReps.tail
      ((nodeIterator iterTree (pstr "abZZ") iterReps).tail) ∧
    (RNode.mk (pstr "ax") [] [] []) = (RNode.mk (pstr "ax") [] [] []) := by
  refine ⟨(claim_C9 iterTree (pstr "abZZ") iterReps).1,
    (claim_C9 iterTree (pstr "abZZ") iterReps).2.1,
    (claim_C9 uniqTree (pstr "ax25") []).2.2 (RNode.mk (pstr "ax") [] [] [])
      (RNode.mk (pstr "ax") [] [] []) (pstr "ax25") ?_ ?_ ?_ ?_ ?_ ?_ ?_⟩
  · simp +decide [uniqTree, RNode.children, RNode.segment, pstr]
  · simp [uniqTree, RNode.children]
  · simp [uniqTree, RNode.children]
  · simp +decide [RNode.segment, pstr]
  · simp +decide [RNode.segment, pstr]
  · simp +decide [RNode.segment, pstr]
  · simp +decide [RNode.segment, pstr]


theorem countExt_append (a b : List Ev) : countExt (a ++ b) = countExt a + countExt b := by
  simp [countExt, List.filter_append]

theorem callNextAux_countExt (fs : List Frame) : ∀ ctx : Ctx, countExt (callNextAux fs ctx).1 = 1 := by
  induction fs with
  | nil => intro ctx; simp [callNextAux, countExt]
  | cons f rest ih => intro ctx; simp [callNextAux, ih]

theorem runGroup_countExt (beh : Nat → Bool) (g : List Nat) (ctx : Ctx) :
    countExt (runGroup beh g ctx).1 = 0 := by
  induction g with
  | nil => simp [runGroup, countExt]
  | cons h rest ih =>
    by_cases hb : beh h
    · simp [runGroup, hb, countExt] at ih ⊢
      exact ih
    · simp [runGroup, hb, countExt]

theorem runGroup_ok (beh : Nat → Bool) (g : List Nat) (ctx : Ctx) :
    (runGroup beh g ctx).2 = g.all beh := by
  induction g with
  | nil => simp [runGroup]
  | cons h rest ih =>
    by_cases hb : beh h
    · simp [runGroup, hb, ih]
    · simp [runGroup, hb]

/-- C5 (amended): during any dispatch execution, the outer continuation is
invoked exactly once when every driven handler (including the final
terminator) calls `next`, so that control falls through past the end of the
plan; and it is not invoked at all otherwise — in particular whenever some
driven handler, typically a terminator, does not call `next`. -/
theorem claim_C5 : ∀ (beh : Nat → Bool) (pl : Plan) (fs : List Frame) (ctx : Ctx),
    countExt (runPlan beh pl fs ctx).1 = if completes beh pl then 1 else 0 := by
  intro beh pl
  induction pl with
  | callNext =>
    intro fs ctx
    simp [runPlan, completes, callNextAux_countExt]
  | halt =>
    intro fs ctx
    simp [runPlan, completes, countExt]
  | seq g rest ih =>
    intro fs ctx
    simp only [runPlan, completes]
    by_cases hok : (runGroup beh g ctx).2
    · rw [if_pos hok]
      simp only [countExt_append, runGroup_countExt, ih]
      rw [runGroup_ok] at hok
      simp [hok]
    · rw [if_neg hok]
      rw [runGroup_ok] at hok
      simp only [Bool.not_eq_true] at hok
      simp [runGroup_countExt, hok]
  | bind n v inner ih =>
    intro fs ctx
    simp only [runPlan, completes]
    simp [countExt, ih ((n, viewJS (ensureParams ctx) n, v) :: fs) (setJS n (some v) (ensureParams ctx))]
    have := ih ((n, viewJS (ensureParams ctx) n, v) :: fs) (setJS n (some v) (ensureParams ctx))
    simp [countExt] at this
    omega

/-- Counterexample for C5 as stated: a dispatch that reaches a terminal node
with terminators and is driven through its pipeline and terminators (the
terminator calls `next`) does invoke the outer continuation (exactly once),
rather than not at all. -/
theorem claim_C5_counterexample :
    ranSeq (runPlan (fun _ => true)
      (routerDispatchPlan noRegex false "GET" slashRouter (pstr "/")) [] none).1 = [9] ∧
    countExt (runPlan (fun _ => true)
      (routerDispatchPlan noRegex false "GET" slashRouter (pstr "/")) [] none).1 = 1 := by
  constructor <;>
    simp +decide [slashRouter, pstr, emptyRNode, RNode.fresh, rootLabel, insertPath, insertF,
      splitOrAppend, sizeR, sizeChildrenR, sizeParamsR, spliceStart, commonLength, RNode.children,
      RNode.segment, RNode.lateParams, RNode.methodData, RNode.withChildren, RNode.withSegment,
      walkD, nodeIterator, iterSteps, firstEff, replOf, addTerminatorR, modifyAtF, updMethodData,
      addDataL, jsFindIndex, routerDispatchPlan, dispatchPlan, planItems, terminalPlan,
      headFallback, getMethodData, termLenOpt, matchingSAs, optMid, optTerm, optTermSeq, sortL,
      jsSortTuples, stageLe, isBoundaryAt, jsEndsWithSlash, jsStartsWithSlash, isFinalRem,
      tryParams, paramTry, segValueOf, smMIDDLEWARE, smALL, runPlan, runGroup, callNextAux,
      ranSeq, countExt, List.isPrefixOf, List.findIdx, List.findIdx.go, List.find?,
      List.mergeSort]


theorem setJS_none (name : String) (v : Option Path) : setJS name v none = none := rfl

theorem setJS_ne_none {ctx : Ctx} (name : String) (v : Option Path) (h : ctx ≠ none) :
    setJS name v ctx ≠ none := by
  cases ctx with
  | none => exact absurd rfl h
  | some l => simp [setJS]

theorem restoreFrames_none (fs : List Frame) : restoreFrames fs none = none := by
  induction fs with
  | nil => rfl
  | cons f rest ih =>
    show restoreFrames rest (setJS f.1 f.2.1 none) = none
    rw [setJS_none]
    exact ih

theorem restoreFrames_cons (f : Frame) (fs : List Frame) (ctx : Ctx) :
    restoreFrames (f :: fs) ctx = restoreFrames fs (setJS f.1 f.2.1 ctx) := rfl

theorem restoreFrames_ne_none (fs : List Frame) {ctx : Ctx} (h : ctx ≠ none) :
    restoreFrames fs ctx ≠ none := by
  induction fs generalizing ctx with
  | nil => exact h
  | cons f rest ih => exact ih (setJS_ne_none _ _ h)

theorem applyReFrames_ne_none (fs : List Frame) {ctx : Ctx} (h : ctx ≠ none) :
    applyReFrames fs ctx ≠ none := by
  induction fs generalizing ctx with
  | nil => exact h
  | cons f rest ih => exact setJS_ne_none _ _ (ih (setJS_ne_none _ _ h))

theorem ensureParams_ne_none (ctx : Ctx) : ensureParams ctx ≠ none := by
  cases ctx <;> simp [ensureParams]

theorem viewJS_ensureParams (ctx : Ctx) (name : String) :
    viewJS (ensureParams ctx) name = viewJS ctx name := by
  cases ctx <;> simp [ensureParams, viewJS]

theorem hasKeyJS_ensureParams (ctx : Ctx) (name : String) :
    hasKeyJS (ensureParams ctx) name = hasKeyJS ctx name := by
  cases ctx <;> simp [ensureParams, hasKeyJS]

theorem find?_setEntry_same (l : List PEntry) (name : String) (v : Path) :
    (setEntry l name v).find? (fun e => e.1 == name) = some (name, some v) := by
  induction l with
  | nil => simp [setEntry, List.find?]
  | cons e rest ih =>
    by_cases he : (e.1 == name) = true
    · simp [setEntry, he, List.find?]
    · rw [show setEntry (e :: rest) name v = e :: setEntry rest name v by simp [setEntry, he]]
      rw [List.find?_cons_of_neg _ (by simpa using he)]
      exact ih

theorem find?_setEntry_other (l : List PEntry) {name m : String} (v : Path) (h : m ≠ name) :
    (setEntry l name v).find? (fun e => e.1 == m) = l.find? (fun e => e.1 == m) := by
  have hnm : ((name : String) == m) = false := by
    simp only [beq_eq_false_iff_ne, ne_eq]
    exact fun hc => h hc.symm
  induction l with
  | nil => simp [setEntry, List.find?, hnm]
  | cons e rest ih =>
    by_cases he : (e.1 == name) = true
    · have hem : (e.1 == m) = false := by
        simp only [beq_iff_eq] at he
        rw [he]
        exact hnm
      rw [show setEntry (e :: rest) name v = (name, some v) :: rest by simp [setEntry, he]]
      rw [List.find?_cons_of_neg _ (by simp [hnm]), List.find?_cons_of_neg _ (by simp [hem])]
    · rw [show setEntry (e :: rest) name v = e :: setEntry rest name v by simp [setEntry, he]]
      by_cases hem : (e.1 == m) = true
      · rw [List.find?_cons_of_pos _ (by simpa using hem), List.find?_cons_of_pos _ (by simpa using hem)]
      · rw [List.find?_cons_of_neg _ (by simpa using hem), List.find?_cons_of_neg _ (by simpa using hem)]
        exact ih

theorem find?_delEntry_same (l : List PEntry) (name : String) :
    (delEntry l name).find? (fun e => e.1 == name) = none := by
  rw [List.find?_eq_none]
  intro e he
  have := List.mem_filter.mp he
  simpa using this.2

theorem find?_delEntry_other (l : List PEntry) {name m : String} (h : m ≠ name) :
    (delEntry l name).find? (fun e => e.1 == m) = l.find? (fun e => e.1 == m) := by
  unfold delEntry
  induction l with
  | nil => rfl
  | cons e rest ih =>
    by_cases he : (e.1 == name) = true
    · have hem : (e.1 == m) = false := by
        simp only [beq_iff_eq] at he
        simp only [beq_eq_false_iff_ne, ne_eq, he]
        exact fun hc => h hc.symm
      rw [List.filter_cons_of_neg (by simp [he])]
      rw [List.find?_cons_of_neg _ (by simpa using hem)]
      exact ih
    · rw [List.filter_cons_of_pos (by simp [he])]
      by_cases hem : (e.1 == m) = true
      · rw [List.find?_cons_of_pos _ (by simpa using hem), List.find?_cons_of_pos _ (by simpa using hem)]
      · rw [List.find?_cons_of_neg _ (by simpa using hem), List.find?_cons_of_neg _ (by simpa using hem)]
        exact ih

theorem viewJS_setJS_same (name : String) (v : Option Path) {ctx : Ctx} (h : ctx ≠ none) :
    viewJS (setJS name v ctx) name = v := by
  cases ctx with
  | none => exact absurd rfl h
  | some l =>
    cases v with
    | none =>
      show viewJS (some (delEntry l name)) name = none
      simp only [viewJS, find?_delEntry_same]
    | some vv =>
      show viewJS (some (setEntry l name vv)) name = some vv
      simp only [viewJS, find?_setEntry_same]

theorem viewJS_setJS_other {name m : String} (v : Option Path) (ctx : Ctx) (h : m ≠ name) :
    viewJS (setJS name v ctx) m = viewJS ctx m := by
  cases ctx with
  | none => rfl
  | some l =>
    cases v with
    | none =>
      show viewJS (some (delEntry l name)) m = viewJS (some l) m
      simp only [viewJS, find?_delEntry_other l h]
    | some vv =>
      show viewJS (some (setEntry l name vv)) m = viewJS (some l) m
      simp only [viewJS, find?_setEntry_other l vv h]

theorem any_setEntry_same (l : List PEntry) (name : String) (v : Path) :
    (setEntry l name v).any (fun e => e.1 == name) = true := by
  induction l with
  | nil => simp [setEntry]
  | cons e rest ih =>
    by_cases he : (e.1 == name) = true
    · simp [setEntry, he]
    · simp [setEntry, he, ih]

theorem any_setEntry_other (l : List PEntry) {name m : String} (v : Path) (h : m ≠ name) :
    (setEntry l name v).any (fun e => e.1 == m) = l.any (fun e => e.1 == m) := by
  have hnm : ((name : String) == m) = false := by
    simp only [beq_eq_false_iff_ne, ne_eq]
    exact fun hc => h hc.symm
  induction l with
  | nil => simp [setEntry, hnm]
  | cons e rest ih =>
    by_cases he : (e.1 == name) = true
    · have hem : (e.1 == m) = false := by
        simp only [beq_iff_eq] at he
        rw [he]
        exact hnm
      simp [setEntry, he, hnm, hem]
    · simp only [setEntry, he, if_false, Bool.false_eq_true, if_neg, List.any_cons,
        not_false_iff]
      rw [ih]
  
theorem any_delEntry_same (l : List PEntry) (name : String) :
    (delEntry l name).any (fun e => e.1 == name) = false := by
  rw [List.any_eq_false]
  intro e he
  have := List.mem_filter.mp he
  simpa using this.2

theorem any_delEntry_other (l : List PEntry) {name m : String} (h : m ≠ name) :
    (delEntry l name).any (fun e => e.1 == m) = l.any (fun e => e.1 == m) := by
  unfold delEntry
  induction l with
  | nil => rfl
  | cons e rest ih =>
    by_cases he : (e.1 == name) = true
    · have hem : (e.1 == m) = false := by
        simp only [beq_iff_eq] at he
        simp only [beq_eq_false_iff_ne, ne_eq, he]
        exact fun hc => h hc.symm
      rw [List.filter_cons_of_neg (by simp [he])]
      simp [List.any_cons, hem, ih]
    · rw [List.filter_cons_of_pos (by simp [he])]
      simp [List.any_cons, ih]

theorem hasKeyJS_setJS_same (name : String) (v : Option Path) {ctx : Ctx} (h : ctx ≠ none) :
    hasKeyJS (setJS name v ctx) name = v.isSome := by
  cases ctx with
  | none => exact absurd rfl h
  | some l =>
    cases v with
    | none =>
      show hasKeyJS (some (delEntry l name)) name = false
      simp only [hasKeyJS, any_delEntry_same]
    | some vv =>
      show hasKeyJS (some (setEntry l name vv)) name = true
      simp only [hasKeyJS, any_setEntry_same]

theorem hasKeyJS_setJS_other {name m : String} (v : Option Path) (ctx : Ctx) (h : m ≠ name) :
    hasKeyJS (setJS name v ctx) m = hasKeyJS ctx m := by
  cases ctx with
  | none => rfl
  | some l =>
    cases v with
    | none =>
      show hasKeyJS (some (delEntry l name)) m = hasKeyJS (some l) m
      simp only [hasKeyJS, any_delEntry_other l h]
    | some vv =>
      show hasKeyJS (some (setEntry l name vv)) m = hasKeyJS (some l) m
      simp only [hasKeyJS, any_setEntry_other l vv h]


theorem callNextAux_eq (fs : List Frame) : ∀ ctx : Ctx,
    callNextAux fs ctx = ([Ev.extNext (restoreFrames fs ctx)], applyReFrames fs ctx) := by
  induction fs with
  | nil => intro ctx; rfl
  | cons f rest ih =>
    intro ctx
    simp only [callNextAux, ih, restoreFrames_cons, applyReFrames]

theorem applyReFrames_none (fs : List Frame) : applyReFrames fs none = none := by
  induction fs with
  | nil => rfl
  | cons f rest ih => simp [applyReFrames, setJS, ih]

theorem wfCtx_setEntry {l : List PEntry} (name : String) (v : Path)
    (h : l.all (fun e => e.2.isSome) = true) :
    (setEntry l name v).all (fun e => e.2.isSome) = true := by
  induction l with
  | nil => simp [setEntry]
  | cons e rest ih =>
    simp only [List.all_cons, Bool.and_eq_true] at h
    by_cases he : (e.1 == name) = true
    · simp [setEntry, he, h.2]
    · simp [setEntry, he, h.1, ih h.2]

theorem wfCtx_setJS (name : String) (v : Option Path) {ctx : Ctx} (h : wfCtx ctx = true) :
    wfCtx (setJS name v ctx) = true := by
  cases ctx with
  | none => rfl
  | some l =>
    cases v with
    | none =>
      show wfCtx (some (delEntry l name)) = true
      simp only [wfCtx, delEntry, List.all_eq_true] at h ⊢
      intro e he
      exact h e (List.mem_filter.mp he).1
    | some vv =>
      show wfCtx (some (setEntry l name vv)) = true
      exact wfCtx_setEntry name vv h

theorem wfCtx_ensureParams {ctx : Ctx} (h : wfCtx ctx = true) : wfCtx (ensureParams ctx) = true := by
  cases ctx with
  | none => rfl
  | some l => exact h

theorem wfCtx_applyReFrames (fs : List Frame) : ∀ {ctx : Ctx}, wfCtx ctx = true →
    wfCtx (applyReFrames fs ctx) = true := by
  induction fs with
  | nil => intro ctx h; exact h
  | cons f rest ih => intro ctx h; exact wfCtx_setJS _ _ (ih (wfCtx_setJS _ _ h))

theorem viewJS_setJS_collapse (ctx : Ctx) (n : String) (w : Option Path) (m : String) :
    viewJS (setJS n (viewJS ctx n) (setJS n w ctx)) m = viewJS ctx m := by
  cases ctx with
  | none => simp [setJS, viewJS]
  | some l =>
    by_cases hm : m = n
    · subst hm
      rw [viewJS_setJS_same _ _ (setJS_ne_none _ _ (by simp))]
    · rw [viewJS_setJS_other _ _ hm, viewJS_setJS_other _ _ hm]

theorem viewJS_restoreFrames (fs : List Frame) : ∀ (l : List PEntry) (m : String),
    viewJS (restoreFrames fs (some l)) m =
      match lastFrameVal fs m with
      | some w => w
      | none => viewJS (some l) m := by
  induction fs with
  | nil => intro l m; rfl
  | cons f rest ih =>
    intro l m
    rw [restoreFrames_cons]
    obtain ⟨l2, hl2⟩ : ∃ l2, setJS f.1 f.2.1 (some l) = some l2 := by
      cases f.2.1 <;> exact ⟨_, rfl⟩
    rw [hl2, ih]
    cases hlf : lastFrameVal rest m with
    | some w => simp [lastFrameVal, hlf]
    | none =>
      have hrhs : lastFrameVal (f :: rest) m = if f.1 == m then some f.2.1 else none := by
        simp [lastFrameVal, hlf]
      rw [hrhs]
      by_cases hm : (f.1 == m) = true
      · have hmf : f.1 = m := by simpa using hm
        subst hmf
        rw [if_pos hm, ← hl2, viewJS_setJS_same _ _ (by simp)]
      · rw [if_neg (by simpa using hm)]
        rw [← hl2, viewJS_setJS_other _ _ (fun hc => absurd (by simp [hc]) hm)]

theorem lastFrameVal_none_find? : ∀ {fs : List Frame} {m : String}, lastFrameVal fs m = none →
    fs.find? (fun f => f.1 == m) = none := by
  intro fs m
  induction fs with
  | nil => intro _; rfl
  | cons f rest ih =>
    intro h
    simp only [lastFrameVal] at h
    cases hlf : lastFrameVal rest m with
    | some w => rw [hlf] at h; exact absurd h (by simp)
    | none =>
      rw [hlf] at h
      by_cases hm : (f.1 == m) = true
      · rw [if_pos hm] at h; exact absurd h (by simp)
      · rw [List.find?_cons_of_neg _ (by simpa using hm)]
        exact ih hlf

theorem viewJS_applyReFrames (fs : List Frame) : ∀ (l : List PEntry) (m : String),
    viewJS (applyReFrames fs (some l)) m =
      match fs.find? (fun f => f.1 == m) with
      | some f => some f.2.2
      | none => viewJS (some l) m := by
  induction fs with
  | nil => intro l m; rfl
  | cons f rest ih =>
    intro l m
    obtain ⟨l1, hl1⟩ : ∃ l1, setJS f.1 f.2.1 (some l) = some l1 := by
      cases f.2.1 <;> exact ⟨_, rfl⟩
    by_cases hm : (f.1 == m) = true
    · have hmf : f.1 = m := by simpa using hm
      subst hmf
      rw [List.find?_cons_of_pos _ (by simp)]
      show viewJS (setJS f.1 (some f.2.2) (applyReFrames rest (setJS f.1 f.2.1 (some l)))) f.1 =
        some f.2.2
      rw [hl1]
      exact viewJS_setJS_same f.1 (some f.2.2) (applyReFrames_ne_none rest (by simp))
    · have hmf : m ≠ f.1 := fun hc => absurd (by simp [hc]) hm
      rw [List.find?_cons_of_neg _ (by simpa using hm)]
      show viewJS (setJS f.1 (some f.2.2) (applyReFrames rest (setJS f.1 f.2.1 (some l)))) m = _
      rw [viewJS_setJS_other _ _ hmf, hl1, ih]
      cases hf : rest.find? (fun g => g.1 == m) with
      | some g => rfl
      | none => rw [← hl1, viewJS_setJS_other _ _ hmf]

theorem runGroup_no_extNext (beh : Nat → Bool) (g : List Nat) (ctx : Ctx) (c : Ctx) :
    Ev.extNext c ∉ (runGroup beh g ctx).1 := by
  induction g with
  | nil => simp [runGroup]
  | cons h rest ih =>
    by_cases hb : beh h
    · simp [runGroup, hb, ih]
    · simp [runGroup, hb]

theorem runGroup_ran_ctx (beh : Nat → Bool) (g : List Nat) (ctx : Ctx) {hh : Nat} {c : Ctx}
    (hmem : Ev.ran hh c ∈ (runGroup beh g ctx).1) : c = ctx := by
  induction g with
  | nil => simp [runGroup] at hmem
  | cons h rest ih =>
    by_cases hb : beh h
    · simp only [runGroup, hb, if_true, List.mem_cons] at hmem
      rcases hmem with heq | hmem
      · injection heq with h1 h2
      · exact ih hmem
    · simp only [runGroup, hb, if_false, Bool.false_eq_true, List.mem_singleton] at hmem
      injection hmem with h1 h2

theorem runPlan_ne_none (beh : Nat → Bool) (pl : Plan) : ∀ (fs : List Frame) {ctx : Ctx},
    ctx ≠ none → (runPlan beh pl fs ctx).2 ≠ none := by
  induction pl with
  | callNext =>
    intro fs ctx h
    show (callNextAux fs ctx).2 ≠ none
    rw [callNextAux_eq]
    exact applyReFrames_ne_none fs h
  | halt => intro fs ctx h; exact h
  | seq g rest ih =>
    intro fs ctx h
    simp only [runPlan]
    by_cases hr : (runGroup beh g ctx).2 = true
    · rw [if_pos hr]; exact ih fs h
    · rw [if_neg hr]; exact h
  | bind name v inner ih =>
    intro fs ctx h
    simp only [runPlan]
    exact setJS_ne_none _ _ (ih _ (setJS_ne_none _ _ (ensureParams_ne_none ctx)))

theorem runPlan_wf (beh : Nat → Bool) (pl : Plan) : ∀ (fs : List Frame) {ctx : Ctx},
    wfCtx ctx = true → wfCtx (runPlan beh pl fs ctx).2 = true := by
  induction pl with
  | callNext =>
    intro fs ctx h
    show wfCtx (callNextAux fs ctx).2 = true
    rw [callNextAux_eq]
    exact wfCtx_applyReFrames fs h
  | halt => intro fs ctx h; exact h
  | seq g rest ih =>
    intro fs ctx h
    simp only [runPlan]
    by_cases hr : (runGroup beh g ctx).2 = true
    · rw [if_pos hr]; exact ih fs h
    · rw [if_neg hr]; exact h
  | bind name v inner ih =>
    intro fs ctx h
    simp only [runPlan]
    exact wfCtx_setJS _ _ (ih _ (wfCtx_setJS _ _ (wfCtx_ensureParams h)))


theorem runPlan_restore_inv (beh : Nat → Bool) (pl : Plan) :
    ∀ (fs : List Frame) (ctx : Ctx), wfCtx ctx = true → (ctx = none → fs = []) →
      (∀ m, viewJS (restoreFrames fs (runPlan beh pl fs ctx).2) m = viewJS (restoreFrames fs ctx) m)
      ∧ (∀ c, Ev.extNext c ∈ (runPlan beh pl fs ctx).1 →
          ∀ m, viewJS c m = viewJS (restoreFrames fs ctx) m) := by
  induction pl with
  | callNext =>
    intro fs ctx hwf hfs
    show (∀ m, viewJS (restoreFrames fs (callNextAux fs ctx).2) m = _)
      ∧ (∀ c, Ev.extNext c ∈ (callNextAux fs ctx).1 → _)
    rw [callNextAux_eq]
    constructor
    · intro m
      cases ctx with
      | none => rw [applyReFrames_none]
      | some l =>
        obtain ⟨la, hla⟩ : ∃ la, applyReFrames fs (some l) = some la :=
          Option.ne_none_iff_exists'.mp (applyReFrames_ne_none fs (by simp))
        rw [hla, viewJS_restoreFrames, viewJS_restoreFrames]
        cases hlf : lastFrameVal fs m with
        | some w => rfl
        | none =>
          rw [← hla, viewJS_applyReFrames, lastFrameVal_none_find? hlf]
    · intro c hc m
      simp only [List.mem_singleton, Ev.extNext.injEq] at hc
      subst hc
      rfl
  | halt =>
    intro fs ctx hwf hfs
    exact ⟨fun m => rfl, fun c hc => absurd hc (by simp [runPlan])⟩
  | seq g rest ih =>
    intro fs ctx hwf hfs
    simp only [runPlan]
    by_cases hr : (runGroup beh g ctx).2 = true
    · rw [if_pos hr]
      obtain ⟨hB, hA⟩ := ih fs ctx hwf hfs
      refine ⟨hB, ?_⟩
      intro c hc m
      rw [List.mem_append] at hc
      rcases hc with hc | hc
      · exact absurd hc (runGroup_no_extNext beh g ctx c)
      · exact hA c hc m
    · rw [if_neg hr]
      exact ⟨fun m => rfl, fun c hc => absurd hc (runGroup_no_extNext beh g ctx c)⟩
  | bind name v inner ih =>
    intro fs ctx hwf hfs
    simp only [runPlan]
    have hwf1 : wfCtx (setJS name (some v) (ensureParams ctx)) = true :=
      wfCtx_setJS _ _ (wfCtx_ensureParams hwf)
    have hfs1 : setJS name (some v) (ensureParams ctx) = none →
        ((name, viewJS (ensureParams ctx) name, v) :: fs) = [] :=
      fun hc => absurd hc (setJS_ne_none _ _ (ensureParams_ne_none ctx))
    obtain ⟨iB, iA⟩ := ih ((name, viewJS (ensureParams ctx) name, v) :: fs)
      (setJS name (some v) (ensureParams ctx)) hwf1 hfs1
    have hkey : ∀ m, viewJS (restoreFrames fs (setJS name (viewJS (ensureParams ctx) name)
        (setJS name (some v) (ensureParams ctx)))) m = viewJS (restoreFrames fs ctx) m := by
      intro m
      by_cases hn : ctx = none
      · rw [hfs hn]
        show viewJS (setJS name (viewJS (ensureParams ctx) name)
          (setJS name (some v) (ensureParams ctx))) m = viewJS ctx m
        rw [viewJS_setJS_collapse, viewJS_ensureParams]
      · obtain ⟨l, hl⟩ := Option.ne_none_iff_exists'.mp hn
        obtain ⟨l2, hl2⟩ : ∃ l2, setJS name (viewJS (ensureParams ctx) name)
            (setJS name (some v) (ensureParams ctx)) = some l2 :=
          Option.ne_none_iff_exists'.mp
            (setJS_ne_none _ _ (setJS_ne_none _ _ (ensureParams_ne_none ctx)))
        rw [hl2, hl, viewJS_restoreFrames, viewJS_restoreFrames]
        cases hlf : lastFrameVal fs m with
        | some w => rfl
        | none =>
          rw [← hl, ← hl2, viewJS_setJS_collapse, viewJS_ensureParams, hl]
    constructor
    · intro m
      exact (iB m).trans (hkey m)
    · intro c hc m
      rcases List.mem_cons.mp hc with heq | hc2
      · simp at heq
      · exact (iA c hc2 m).trans (hkey m)

theorem runPlan_ran_view (beh : Nat → Bool) (pl : Plan) :
    ∀ (fs : List Frame) (ctx : Ctx) (name : String) (v : Path),
      bindsName name pl = 0 → viewJS ctx name = some v →
      ∀ (c : Ctx) (hh : Nat), Ev.ran hh c ∈ (runPlan beh pl fs ctx).1 →
        viewJS c name = some v := by
  induction pl with
  | callNext =>
    intro fs ctx name v _ hv c hh hc
    have hc2 : Ev.ran hh c ∈ (callNextAux fs ctx).1 := hc
    rw [callNextAux_eq] at hc2
    simp at hc2
  | halt =>
    intro fs ctx name v _ hv c hh hc
    simp [runPlan] at hc
  | seq g rest ih =>
    intro fs ctx name v hb hv c hh hc
    simp only [runPlan] at hc
    by_cases hr : (runGroup beh g ctx).2 = true
    · rw [if_pos hr] at hc
      rw [List.mem_append] at hc
      rcases hc with hc | hc
      · rw [runGroup_ran_ctx beh g ctx hc]
        exact hv
      · exact ih fs ctx name v hb hv c hh hc
    · rw [if_neg hr] at hc
      rw [runGroup_ran_ctx beh g ctx hc]
      exact hv
  | bind n w inner ih =>
    intro fs ctx name v hb hv c hh hc
    simp only [runPlan] at hc
    have hnn : ¬ n = name := by
      intro hcontra
      simp only [bindsName, if_pos hcontra] at hb
      omega
    have hbi : bindsName name inner = 0 := by
      simp only [bindsName, if_neg hnn] at hb
      omega
    rcases List.mem_cons.mp hc with heq | hc2
    · simp at heq
    · have hv1 : viewJS (setJS n (some w) (ensureParams ctx)) name = some v := by
        rw [viewJS_setJS_other _ _ (fun hcc => hnn hcc.symm), viewJS_ensureParams]
        exact hv
      exact ih _ _ name v hbi hv1 c hh hc2

/-- C2: during any dispatch run from the router's top level, every invocation
of the outer `next` observes `ctx.params` exactly as it was before the
dispatch began, and after the dispatch returns every key of `ctx.params`
again reads its pre-dispatch value; inside a parameter's sub-dispatch (one
that does not re-bind the same name) every handler observes
`ctx.params[name]` equal to the captured value. -/
theorem claim_C2 (beh : Nat → Bool) (pl inner : Plan) (name : String) (v : Path) (ctx : Ctx)
    (hwf : wfCtx ctx = true) :
    (∀ c, Ev.extNext c ∈ (runPlan beh pl [] ctx).1 → ∀ m, viewJS c m = viewJS ctx m)
    ∧ (∀ m, viewJS (runPlan beh pl [] ctx).2 m = viewJS ctx m)
    ∧ (bindsName name inner = 0 →
        ∀ c hh, Ev.ran hh c ∈ (runPlan beh (.bind name v inner) [] ctx).1 →
          viewJS c name = some v) := by
  obtain ⟨hB, hA⟩ := runPlan_restore_inv beh pl [] ctx hwf (fun _ => rfl)
  refine ⟨fun c hc m => hA c hc m, fun m => hB m, ?_⟩
  intro hbi c hh hc
  simp only [runPlan] at hc
  rcases List.mem_cons.mp hc with heq | hc2
  · simp at heq
  · have hv1 : viewJS (setJS name (some v) (ensureParams ctx)) name = some v :=
      viewJS_setJS_same name (some v) (ensureParams_ne_none ctx)
    exact runPlan_ran_view beh inner _ _ name v hbi hv1 c hh hc2

theorem claim_C2_witness :
    wfCtx (some [("other", some (pstr "1"))]) = true
    ∧ ((∀ c, Ev.extNext c ∈ (runPlan (fun _ => true)
          (.bind "id" (pstr "58") .callNext) [] (some [("other", some (pstr "1"))])).1 →
          ∀ m, viewJS c m = viewJS (some [("other", some (pstr "1"))]) m)
      ∧ (∀ m, viewJS (runPlan (fun _ => true)
          (.bind "id" (pstr "58") .callNext) [] (some [("other", some (pstr "1"))])).2 m =
          viewJS (some [("other", some (pstr "1"))]) m)
      ∧ (bindsName "id" .callNext = 0 →
          ∀ c hh, Ev.ran hh c ∈ (runPlan (fun _ => true)
            (.bind "id" (pstr "58") .callNext) [] (some [("other", some (pstr "1"))])).1 →
            viewJS c "id" = some (pstr "58"))) :=
  ⟨rfl, claim_C2 (fun _ => true) (.bind "id" (pstr "58") .callNext) .callNext "id"
    (pstr "58") (some [("other", some (pstr "1"))]) rfl⟩

/-- C10: when a dispatch binds a parameter name that had no key in
`ctx.params` beforehand, the post-dispatch `ctx.params` does not contain the
key at all (the restore deletes it rather than storing `undefined`), and
`ctx.params` itself exists after the dispatch even if it did not before
(it is created on the first parameter bind). -/
theorem claim_C10 (beh : Nat → Bool) (name : String) (v : Path) (inner : Plan)
    (fs : List Frame) (ctx : Ctx) (hk : hasKeyJS ctx name = false) :
    hasKeyJS (runPlan beh (.bind name v inner) fs ctx).2 name = false
    ∧ (runPlan beh (.bind name v inner) fs ctx).2 ≠ none := by
  have hold : viewJS (ensureParams ctx) name = none := by
    cases ctx with
    | none => rfl
    | some l =>
      show viewJS (some l) name = none
      simp only [hasKeyJS] at hk
      rw [List.any_eq_false] at hk
      simp only [viewJS, List.find?_eq_none.mpr hk]
  constructor
  · simp only [runPlan]
    rw [hold]
    obtain ⟨l2, hl2⟩ : ∃ l2, (runPlan beh inner ((name, none, v) :: fs)
        (setJS name (some v) (ensureParams ctx))).2 = some l2 :=
      Option.ne_none_iff_exists'.mp
        (runPlan_ne_none beh inner _ (setJS_ne_none _ _ (ensureParams_ne_none ctx)))
    rw [hl2]
    show hasKeyJS (some (delEntry l2 name)) name = false
    simp only [hasKeyJS]
    exact any_delEntry_same l2 name
  · simp only [runPlan]
    exact setJS_ne_none _ _
      (runPlan_ne_none beh inner _ (setJS_ne_none _ _ (ensureParams_ne_none ctx)))

theorem claim_C10_witness :
    hasKeyJS (none : Ctx) "id" = false
    ∧ (hasKeyJS (runPlan (fun _ => true) (.bind "id" (pstr "58") .callNext) [] none).2 "id" = false
      ∧ (runPlan (fun _ => true) (.bind "id" (pstr "58") .callNext) [] none).2 ≠ none) :=
  ⟨rfl, claim_C10 (fun _ => true) "id" (pstr "58") .callNext [] none rfl⟩


theorem optMid_flatten (md : Option MData) : (optMid md).flatten = mdMidOf md := by
  cases md with
  | none => rfl
  | some md =>
    simp only [optMid, mdMidOf]
    by_cases h : md.1.length > 0
    · rw [if_pos h]
      simp
    · rw [if_neg h]
      have h0 : md.1 = [] := List.eq_nil_of_length_eq_zero (by omega)
      simp [h0]

theorem optTerm_flatten (md : Option MData) : (optTerm md).flatten = mdTermOf md := by
  cases md with
  | none => rfl
  | some md =>
    simp only [optTerm, mdTermOf]
    by_cases h : md.2.length > 0
    · rw [if_pos h]
      simp
    · rw [if_neg h]
      have h0 : md.2 = [] := List.eq_nil_of_length_eq_zero (by omega)
      simp [h0]

theorem jsSortTuples_eq_flatten {D : Type} (ls : List (List (Int × D)))
    (hws : ∀ l ∈ ls, sortedByStage l) :
    jsSortTuples ls = ls.flatten.mergeSort stageLe := by
  match ls with
  | [] => simp [jsSortTuples, List.mergeSort]
  | [a] =>
    have ha : a.Pairwise (fun x y => stageLe x y = true) :=
      (hws a (by simp)).imp (fun h => by simpa [stageLe] using h)
    rw [show ([a] : List (List (Int × D))).flatten = a by simp]
    exact (List.mergeSort_of_sorted ha).symm
  | a :: b :: rest =>
    simp [jsSortTuples]

/-- C1: whenever a dispatch reaches a terminal node whose method data (after
the HEAD fallback) or ALL data has at least one terminator, the group run
before the terminators is the stage-merge of the node's MIDDLEWARE
middleware, the gathered MIDDLEWARE terminators of earlier boundary nodes in
gathered order, the node's MIDDLEWARE terminators, the HEAD middleware when
the fallback was taken, the method middleware, and the ALL middleware — ties
broken in that priority order — and is followed by the method terminators
then the ALL terminators in local order; and for the section 8 scenario-1
registration at `/`, GET `/` runs the handlers in the order
m−5, a, g, m0, m5, m10, T (ids 2, 5, 4, 0, 3, 1, 6). -/
theorem claim_C1 :
    (∀ (n : RNode) (accum : List (List (Int × Nat))) (method : String),
      (∀ l ∈ matchingSAs n accum (headFallback n method).1 (headFallback n method).2
          (getMethodData n smALL), sortedByStage l) →
      (termLenOpt (headFallback n method).2 > 0 ∨ termLenOpt (getMethodData n smALL) > 0) →
      terminalPlan n accum method = some (.seq
        ((specMergedTuples n accum (headFallback n method).1 (headFallback n method).2
          (getMethodData n smALL)).map Prod.snd)
        (optTermSeq (headFallback n method).2
          (optTermSeq (getMethodData n smALL) .callNext))))
    ∧ ranSeq (runPlan (fun _ => true)
        (routerDispatchPlan noRegex false "GET" scenarioRouter1 (pstr "/")) [] none).1
      = [2, 5, 4, 0, 3, 1, 6] := by
  constructor
  · intro n accum method hsort hter
    have hgroup : sortL (matchingSAs n accum (headFallback n method).1 (headFallback n method).2
        (getMethodData n smALL))
        = (specMergedTuples n accum (headFallback n method).1 (headFallback n method).2
          (getMethodData n smALL)).map Prod.snd := by
      unfold sortL specMergedTuples
      rw [jsSortTuples_eq_flatten _ hsort]
      have hflat : (matchingSAs n accum (headFallback n method).1 (headFallback n method).2
          (getMethodData n smALL)).flatten
          = ((mdMidOf (getMethodData n smMIDDLEWARE) :: accum) ++
              [mdTermOf (getMethodData n smMIDDLEWARE), mdMidOf (headFallback n method).1,
                mdMidOf (headFallback n method).2, mdMidOf (getMethodData n smALL)]).flatten := by
        simp [matchingSAs, optMid_flatten, optTerm_flatten]
      rw [hflat]
    simp only [terminalPlan]
    rw [if_pos hter, hgroup]
  · simp +decide [scenarioRouter1, pstr, emptyRNode, RNode.fresh, rootLabel, insertPath, insertF,
      splitOrAppend, sizeR, sizeChildrenR, sizeParamsR, spliceStart, commonLength, RNode.children,
      RNode.segment, RNode.lateParams, RNode.methodData, RNode.withChildren, RNode.withSegment,
      walkD, nodeIterator, iterSteps, firstEff, replOf, addTerminatorR, addMiddlewareR, modifyAtF,
      updMethodData, addDataL, jsFindIndex, routerDispatchPlan, dispatchPlan, planItems,
      terminalPlan, headFallback, getMethodData, termLenOpt, matchingSAs, optMid, optTerm,
      optTermSeq, sortL, jsSortTuples, stageLe, isBoundaryAt, jsEndsWithSlash, jsStartsWithSlash,
      isFinalRem, tryParams, paramTry, segValueOf, smMIDDLEWARE, smALL, runPlan, runGroup,
      callNextAux, ranSeq, countExt, List.isPrefixOf, List.findIdx, List.findIdx.go, List.find?,
      List.mergeSort]

theorem claim_C1_witness :
    ((∀ l ∈ matchingSAs aboutNode [] (headFallback aboutNode "GET").1
        (headFallback aboutNode "GET").2 (getMethodData aboutNode smALL), sortedByStage l)
      ∧ (termLenOpt (headFallback aboutNode "GET").2 > 0
        ∨ termLenOpt (getMethodData aboutNode smALL) > 0))
    ∧ terminalPlan aboutNode [] "GET" = some (.seq
        ((specMergedTuples aboutNode [] (headFallback aboutNode "GET").1
          (headFallback aboutNode "GET").2 (getMethodData aboutNode smALL)).map Prod.snd)
        (optTermSeq (headFallback aboutNode "GET").2
          (optTermSeq (getMethodData aboutNode smALL) .callNext))) :=
  ⟨⟨by simp +decide [matchingSAs, optMid, optTerm, getMethodData, headFallback, termLenOpt,
      aboutNode, smMIDDLEWARE, smALL, RNode.methodData, List.find?], by decide⟩,
    claim_C1.1 aboutNode [] "GET"
      (by simp +decide [matchingSAs, optMid, optTerm, getMethodData, headFallback, termLenOpt,
        aboutNode, smMIDDLEWARE, smALL, RNode.methodData, List.find?])
      (by decide)⟩


theorem optMid_map_filter (md : Option MData) (s : Int) :
    ((optMid md).map (stageFilter s)).flatten = stageFilter s (mdMidOf md) := by
  cases md with
  | none => rfl
  | some md =>
    simp only [optMid, mdMidOf]
    by_cases h : md.1.length > 0
    · rw [if_pos h]
      simp
    · rw [if_neg h]
      have h0 : md.1 = [] := List.eq_nil_of_length_eq_zero (by omega)
      simp [h0, stageFilter]

theorem optTerm_map_filter (md : Option MData) (s : Int) :
    ((optTerm md).map (stageFilter s)).flatten = stageFilter s (mdTermOf md) := by
  cases md with
  | none => rfl
  | some md =>
    simp only [optTerm, mdTermOf]
    by_cases h : md.2.length > 0
    · rw [if_pos h]
      simp
    · rw [if_neg h]
      have h0 : md.2 = [] := List.eq_nil_of_length_eq_zero (by omega)
      simp [h0, stageFilter]

/-- C6: a HEAD request at a terminal node with no HEAD terminators but with
GET terminators takes the fallback — the method data becomes the GET data, so
the GET terminators are the ones yielded — and HEAD middleware still
participates in the merged group, placed at every stage immediately before
the GET middleware of that stage. -/
theorem claim_C6 (n : RNode) (accum : List (List (Int × Nat)))
    (hhead : termLenOpt (getMethodData n "HEAD") = 0)
    (hget : termLenOpt (getMethodData n "GET") > 0)
    (hsort : ∀ l ∈ matchingSAs n accum (getMethodData n "HEAD") (getMethodData n "GET")
        (getMethodData n smALL), sortedByStage l) :
    headFallback n "HEAD" = (getMethodData n "HEAD", getMethodData n "GET")
    ∧ terminalPlan n accum "HEAD" = some (.seq
        (sortL (matchingSAs n accum (getMethodData n "HEAD") (getMethodData n "GET")
          (getMethodData n smALL)))
        (.seq ((mdTermOf (getMethodData n "GET")).map Prod.snd)
          (optTermSeq (getMethodData n smALL) .callNext)))
    ∧ (∀ s : Int,
        stageFilter s (jsSortTuples (matchingSAs n accum (getMethodData n "HEAD")
          (getMethodData n "GET") (getMethodData n smALL)))
        = stageFilter s (mdMidOf (getMethodData n smMIDDLEWARE))
          ++ (accum.map (stageFilter s)).flatten
          ++ stageFilter s (mdTermOf (getMethodData n smMIDDLEWARE))
          ++ stageFilter s (mdMidOf (getMethodData n "HEAD"))
          ++ stageFilter s (mdMidOf (getMethodData n "GET"))
          ++ stageFilter s (mdMidOf (getMethodData n smALL))) := by
  have hf : headFallback n "HEAD" = (getMethodData n "HEAD", getMethodData n "GET") := by
    simp only [headFallback]
    rw [if_pos ⟨trivial, hhead⟩]
  obtain ⟨g, hg⟩ : ∃ g, getMethodData n "GET" = some g := by
    cases hmd : getMethodData n "GET" with
    | none => rw [hmd] at hget; simp [termLenOpt] at hget
    | some g => exact ⟨g, rfl⟩
  refine ⟨hf, ?_, ?_⟩
  · simp only [terminalPlan, hf]
    rw [if_pos (Or.inl hget)]
    rw [hg]
    simp [optTermSeq, mdTermOf]
  · intro s
    have h := (jsSortTuples_sorted_filter (matchingSAs n accum (getMethodData n "HEAD")
      (getMethodData n "GET") (getMethodData n smALL)) hsort).2 s
    rw [h]
    simp [matchingSAs, List.map_append, List.flatten_append, optMid_map_filter,
      optTerm_map_filter, List.append_assoc]

theorem claim_C6_witness :
    (termLenOpt (getMethodData headNode "HEAD") = 0
      ∧ termLenOpt (getMethodData headNode "GET") > 0
      ∧ (∀ l ∈ matchingSAs headNode [] (getMethodData headNode "HEAD")
          (getMethodData headNode "GET") (getMethodData headNode smALL), sortedByStage l))
    ∧ (headFallback headNode "HEAD" = (getMethodData headNode "HEAD", getMethodData headNode "GET")
      ∧ terminalPlan headNode [] "HEAD" = some (.seq
          (sortL (matchingSAs headNode [] (getMethodData headNode "HEAD")
            (getMethodData headNode "GET") (getMethodData headNode smALL)))
          (.seq ((mdTermOf (getMethodData headNode "GET")).map Prod.snd)
            (optTermSeq (getMethodData headNode smALL) .callNext)))
      ∧ (∀ s : Int,
          stageFilter s (jsSortTuples (matchingSAs headNode [] (getMethodData headNode "HEAD")
            (getMethodData headNode "GET") (getMethodData headNode smALL)))
          = stageFilter s (mdMidOf (getMethodData headNode smMIDDLEWARE))
            ++ (([] : List (List (Int × Nat))).map (stageFilter s)).flatten
            ++ stageFilter s (mdTermOf (getMethodData headNode smMIDDLEWARE))
            ++ stageFilter s (mdMidOf (getMethodData headNode "HEAD"))
            ++ stageFilter s (mdMidOf (getMethodData headNode "GET"))
            ++ stageFilter s (mdMidOf (getMethodData headNode smALL)))) :=
  ⟨⟨by decide, by decide,
    by simp +decide [matchingSAs, optMid, optTerm, headNode, getMethodData, smMIDDLEWARE, smALL,
      RNode.methodData, List.find?, sortedByStage]⟩,
    claim_C6 headNode [] (by decide) (by decide)
      (by simp +decide [matchingSAs, optMid, optTerm, headNode, getMethodData, smMIDDLEWARE, smALL,
        RNode.methodData, List.find?, sortedByStage])⟩


/-- C8: the parameter block of the dispatch. The candidate value of a branch
is the full remainder for a multi (`matchAll`) branch and the remainder up to
the next `/` otherwise (`segValueOf` computes exactly that); a branch with a
regex replaces the candidate by the regex's matched substring and is skipped
when the regex fails; an empty candidate with no regex is skipped; the
branches of a node are tried first-to-last in the staged list and the first
success wins — later branches can never change an earlier success, and a
prefix with no success defers to the rest; and at a non-terminal item a
successful branch makes the whole item plan the scoped bind around the
sub-dispatch (after the boundary middleware group, when one is due), so after
that sub-dispatch returns nothing further of this node or the remaining walk
is ever tried. -/
theorem claim_C8 (renv : RegexEnv) :
    (∀ rem : Path, segValueOf rem = rem.takeWhile (fun c => ! decide (c = '/')))
    ∧ (∀ (rem segVal : Path) (name : String) (rid : Nat) (matchAll : Bool) (root : RNode)
        (stage : Int),
        paramTry renv rem segVal (stage, (name, some rid, matchAll, root))
          = match renv rid (if matchAll then rem else segVal) with
            | none => none
            | some m => some (name, m, root))
    ∧ (∀ (rem segVal : Path) (name : String) (matchAll : Bool) (root : RNode) (stage : Int),
        paramTry renv rem segVal (stage, (name, none, matchAll, root))
          = if (if matchAll then rem else segVal) = [] then none
            else some (name, (if matchAll then rem else segVal), root))
    ∧ (∀ (rem : Path) (l1 l2 : List (Int × (String × Option Nat × Bool × RNode)))
        (r : String × Path × RNode),
        tryParams renv rem l1 = some r → tryParams renv rem (l1 ++ l2) = some r)
    ∧ (∀ (rem : Path) (l1 l2 : List (Int × (String × Option Nat × Bool × RNode))),
        tryParams renv rem l1 = none → tryParams renv rem (l1 ++ l2) = tryParams renv rem l2)
    ∧ (∀ (dp : RNode → Path → Plan) (strict : Bool) (method : String) (node : RNode)
        (rem : Path) (rest : List (RNode × Path)) (accum : List (List (Int × Nat)))
        (pv : String × Path × RNode),
        (rest.isEmpty && isFinalRem strict rem) = false →
        tryParams renv rem node.lateParams = some pv →
        planItems dp strict method renv ((node, rem) :: rest) accum
          = if isBoundaryAt node rest
                && (match getMethodData node smMIDDLEWARE with
                    | some mw => decide (mw.1.length > 0)
                    | none => false)
            then .seq ((match getMethodData node smMIDDLEWARE with
                  | some mw => mw.1
                  | none => []).map Prod.snd)
                (Plan.bind pv.1 pv.2.1 (dp pv.2.2 (rem.drop pv.2.1.length)))
            else Plan.bind pv.1 pv.2.1 (dp pv.2.2 (rem.drop pv.2.1.length))) := by
  refine ⟨?_, ?_, ?_, ?_, ?_, ?_⟩
  · intro rem
    simp only [segValueOf, jsFindIndex]
    by_cases h : rem.any (fun ch => decide (ch = '/')) = true
    · rw [if_pos h]
      have hne : ((rem.findIdx (fun ch => decide (ch = '/')) : Int)) ≠ -1 := by
        intro hc
        have := Int.natCast_nonneg (rem.findIdx (fun ch => decide (ch = '/')))
        omega
      rw [if_neg hne, Int.toNat_natCast, findIdx_eq_length_takeWhile, take_length_takeWhile]
    · rw [if_neg h, if_pos rfl]
      symm
      rw [List.takeWhile_eq_self_iff]
      intro a ha
      by_contra hc
      apply h
      rw [List.any_eq_true]
      exact ⟨a, ha, by simpa using hc⟩
  · intro rem segVal name rid matchAll root stage
    simp [paramTry]
  · intro rem segVal name matchAll root stage
    by_cases hv : (if matchAll then rem else segVal) = []
    · rw [if_pos hv]
      simp [paramTry, hv]
    · rw [if_neg hv]
      simp [paramTry, hv]
  · intro rem l1 l2 r h
    simp only [tryParams] at *
    rw [List.findSome?_append, h]
    rfl
  · intro rem l1 l2 h
    simp only [tryParams] at *
    rw [List.findSome?_append, h]
    rfl
  · intro dp strict method node rem rest accum pv hcond hpv
    simp only [planItems, hcond, hpv, Bool.false_eq_true, if_false]

theorem claim_C8_witness :
    (((([(RNode.fresh (pstr "y"), pstr "z")] : List (RNode × Path)).isEmpty
        && isFinalRem false (pstr "42")) = false
      ∧ tryParams noRegex (pstr "42") paramNode.lateParams
          = some ("id", pstr "42", RNode.fresh (pstr "x")))
    ∧ planItems (fun _ _ => Plan.halt) false "GET" noRegex
        [(paramNode, pstr "42"), (RNode.fresh (pstr "y"), pstr "z")] []
        = if isBoundaryAt paramNode [(RNode.fresh (pstr "y"), pstr "z")]
              && (match getMethodData paramNode smMIDDLEWARE with
                  | some mw => decide (mw.1.length > 0)
                  | none => false)
          then .seq ((match getMethodData paramNode smMIDDLEWARE with
                | some mw => mw.1
                | none => []).map Prod.snd)
              (Plan.bind "id" (pstr "42")
                ((fun (_ : RNode) (_ : Path) => Plan.halt) (RNode.fresh (pstr "x"))
                  ((pstr "42").drop (pstr "42").length)))
          else Plan.bind "id" (pstr "42")
              ((fun (_ : RNode) (_ : Path) => Plan.halt) (RNode.fresh (pstr "x"))
                ((pstr "42").drop (pstr "42").length))) :=
  ⟨⟨by decide, by rfl⟩,
    (claim_C8 noRegex).2.2.2.2.2 (fun _ _ => Plan.halt) false "GET" paramNode (pstr "42")
      [(RNode.fresh (pstr "y"), pstr "z")] [] ("id", pstr "42", RNode.fresh (pstr "x"))
      (by decide) (by rfl)⟩

end Butterfly
